import Mathlib

/-!
Verification development for the neuclease cleave/hot-knife library.

The Python source is shallowly embedded:
* volumes and images are flattened `List Nat` of labels,
* edge tables are lists of pairs/records,
* floating-point edge weights are embedded as exact fractions (`W`),
* pandas operations (drop_duplicates, groupby/size, sort_values, query)
  are embedded as explicit list functions.

External native routines (vigra's agglomerative clustering and connected
components, skimage's label, graph-tool/networkx connected components,
dvidutils' LabelMapper) are not part of the source tree; where needed they
are modelled from the spec, and such definitions are marked
`Modelled from the spec:` in their doc comments.
-/

namespace Neuclease

/-- Keep the first occurrence of each element, preserving order
(pandas `drop_duplicates()` default semantics). -/
def dedupKeepFirst {α : Type} [DecidableEq α] : List α → List α
  | [] => []
  | a :: l => a :: (dedupKeepFirst l).filter (fun x => x ≠ a)

theorem mem_dedupKeepFirst {α : Type} [DecidableEq α] {a : α} :
    ∀ {l : List α}, a ∈ dedupKeepFirst l ↔ a ∈ l := by
  intro l
  induction l with
  | nil => simp [dedupKeepFirst]
  | cons b l ih =>
    simp only [dedupKeepFirst, List.mem_cons, List.mem_filter]
    constructor
    · rintro (rfl | ⟨h, _⟩)
      · exact Or.inl rfl
      · exact Or.inr (ih.mp h)
    · rintro (rfl | h)
      · exact Or.inl rfl
      · by_cases hab : a = b
        · exact Or.inl hab
        · exact Or.inr ⟨ih.mpr h, by simpa using hab⟩

theorem nodup_dedupKeepFirst {α : Type} [DecidableEq α] :
    ∀ (l : List α), (dedupKeepFirst l).Nodup := by
  intro l
  induction l with
  | nil => simp [dedupKeepFirst]
  | cons b l ih =>
    simp only [dedupKeepFirst]
    refine List.Nodup.cons ?_ (ih.filter _)
    intro hmem
    have := (List.mem_filter.mp hmem).2
    simp at this

/-- Maximum of a list of naturals (0 for the empty list). -/
def maxList (l : List Nat) : Nat := l.foldr max 0

theorem le_maxList {l : List Nat} {a : Nat} (h : a ∈ l) : a ≤ maxList l := by
  induction l with
  | nil => cases h
  | cons b l ih =>
    rcases List.mem_cons.mp h with rfl | h'
    · exact le_max_left _ _
    · exact le_trans (ih h') (le_max_right _ _)

theorem maxList_le {l : List Nat} {k : Nat} (h : ∀ a ∈ l, a ≤ k) : maxList l ≤ k := by
  induction l with
  | nil => exact Nat.zero_le k
  | cons b l ih =>
    exact max_le (h b (List.mem_cons_self _ _)) (ih (fun a ha => h a (List.mem_cons_of_mem _ ha)))

/-! ## Exact fraction weights

Edge weights are floating-point in the source; they are embedded as exact
fractions (numerator/denominator pairs over ℤ, denominators kept positive),
with the arithmetic the clustering needs (add, mul, div, order). This keeps
every operation kernel-computable. `W.toRat` ties the representation to ℚ. -/

structure W where
  num : Int
  den : Int
deriving DecidableEq

instance (n : Nat) : OfNat W n := ⟨⟨Int.ofNat n, 1⟩⟩

def W.add (a b : W) : W := ⟨a.num * b.den + b.num * a.den, a.den * b.den⟩

def W.mul (a b : W) : W := ⟨a.num * b.num, a.den * b.den⟩

def W.div (a b : W) : W :=
  if 0 ≤ b.num then ⟨a.num * b.den, a.den * b.num⟩ else ⟨-(a.num * b.den), -(a.den * b.num)⟩

def W.blt (a b : W) : Bool := a.num * b.den < b.num * a.den

def W.sum (l : List W) : W := l.foldr W.add ⟨0, 1⟩

def W.toRat (a : W) : ℚ := (a.num : ℚ) / (a.den : ℚ)

theorem W.toRat_add {a b : W} (ha : a.den ≠ 0) (hb : b.den ≠ 0) :
    (W.add a b).toRat = a.toRat + b.toRat := by
  have ha' : (a.den : ℚ) ≠ 0 := Int.cast_ne_zero.mpr ha
  have hb' : (b.den : ℚ) ≠ 0 := Int.cast_ne_zero.mpr hb
  unfold W.add W.toRat
  push_cast
  field_simp

theorem W.toRat_mul (a b : W) : (W.mul a b).toRat = a.toRat * b.toRat := by
  unfold W.mul W.toRat
  push_cast
  rw [div_mul_div_comm]

theorem W.blt_iff {a b : W} (ha : 0 < a.den) (hb : 0 < b.den) :
    W.blt a b = true ↔ a.toRat < b.toRat := by
  have ha' : (0 : ℚ) < (a.den : ℚ) := by exact_mod_cast ha
  have hb' : (0 : ℚ) < (b.den : ℚ) := by exact_mod_cast hb
  unfold W.blt W.toRat
  rw [div_lt_div_iff₀ ha' hb', decide_eq_true_eq]
  constructor
  · intro h
    have : ((a.num * b.den : Int) : ℚ) < ((b.num * a.den : Int) : ℚ) := by exact_mod_cast h
    push_cast at this
    linarith
  · intro h
    have : ((a.num * b.den : Int) : ℚ) < ((b.num * a.den : Int) : ℚ) := by push_cast; linarith
    exact_mod_cast this

/-! ## Graph cleaving engine (src/neuclease/cleave.py) -/

/-- Sort a pair's two endpoints into canonical (nondecreasing) order,
embedding the row-wise `edges.sort(axis=1)`. -/
def sortPair (p : Nat × Nat) : Nat × Nat :=
  if p.1 ≤ p.2 then p else (p.2, p.1)

/-- Embedding of `edges_df.drop_duplicates(['u','v'], keep='last')`:
drop rows whose (u,v) pair occurs again later in the list, so the last
occurrence of each unordered pair survives, in its original position. -/
def dropDupPairsKeepLast : List ((Nat × Nat) × W) → List ((Nat × Nat) × W)
  | [] => []
  | e :: rest =>
    if rest.any (fun f => f.1 = e.1) then dropDupPairsKeepLast rest
    else e :: dropDupPairsKeepLast rest

/-- Edge cleaning step of `cleave` (cleave.py lines 59-65): sort each pair,
drop duplicate pairs keeping the most recently listed weight, then drop
self-loop rows (`u != v`). -/
def cleanEdges (edges : List (Nat × Nat)) (weights : List W) : List ((Nat × Nat) × W) :=
  (dropDupPairsKeepLast ((edges.map sortPair).zip weights)).filter (fun r => r.1.1 ≠ r.1.2)

theorem cleanEdges_no_self_loop {edges : List (Nat × Nat)} {weights : List W}
    {r : (Nat × Nat) × W} (h : r ∈ cleanEdges edges weights) : r.1.1 ≠ r.1.2 := by
  have := (List.mem_filter.mp h).2
  simpa using this

theorem dropDupPairsKeepLast_sublist :
    ∀ (l : List ((Nat × Nat) × W)), (dropDupPairsKeepLast l).Sublist l := by
  intro l
  induction l with
  | nil => simp [dropDupPairsKeepLast]
  | cons e rest ih =>
    by_cases h : rest.any (fun f => f.1 = e.1)
    · simp only [dropDupPairsKeepLast, if_pos h]
      exact ih.cons e
    · simp only [dropDupPairsKeepLast, if_neg h]
      exact ih.cons₂ e

theorem dropDupPairsKeepLast_pair_not_later :
    ∀ (l : List ((Nat × Nat) × W)), (dropDupPairsKeepLast l).Pairwise (fun r s => r.1 ≠ s.1) := by
  intro l
  induction l with
  | nil => simp [dropDupPairsKeepLast]
  | cons e rest ih =>
    by_cases h : rest.any (fun f => f.1 = e.1)
    · simpa only [dropDupPairsKeepLast, if_pos h] using ih
    · simp only [dropDupPairsKeepLast, if_neg h]
      refine List.Pairwise.cons ?_ ih
      intro s hs heq
      have hsrest : s ∈ rest := (dropDupPairsKeepLast_sublist rest).mem hs
      have : rest.any (fun f => f.1 = e.1) := by
        refine List.any_eq_true.mpr ⟨s, hsrest, ?_⟩
        simp [heq]
      exact h this

theorem cleanEdges_pairs_nodup (edges : List (Nat × Nat)) (weights : List W) :
    ((cleanEdges edges weights).map (fun r => r.1)).Nodup := by
  have h := dropDupPairsKeepLast_pair_not_later ((edges.map sortPair).zip weights)
  have h2 : (cleanEdges edges weights).Pairwise (fun r s => r.1 ≠ s.1) :=
    List.Pairwise.sublist (List.filter_sublist _) h
  exact List.pairwise_map.mpr h2

theorem cleanEdges_pair_sorted {edges : List (Nat × Nat)} {weights : List W}
    {r : (Nat × Nat) × W} (h : r ∈ cleanEdges edges weights) : r.1.1 < r.1.2 := by
  have hmem : r ∈ dropDupPairsKeepLast ((edges.map sortPair).zip weights) :=
    (List.mem_filter.mp h).1
  have hzip : r ∈ (edges.map sortPair).zip weights :=
    (dropDupPairsKeepLast_sublist _).mem hmem
  have h1 : r.1 ∈ edges.map sortPair := (List.of_mem_zip hzip).1
  obtain ⟨p, _, hp⟩ := List.mem_map.mp h1
  have hle : r.1.1 ≤ r.1.2 := by
    rw [← hp]
    unfold sortPair
    split
    · assumption
    · omega
  have hne := cleanEdges_no_self_loop h
  omega

/-- Cluster-space edge during agglomeration: endpoints are current cluster
ids, `w` is the (averaged) edge weight, `len` the accumulated edge length. -/
structure CEdge where
  cu : Nat
  cv : Nat
  w : W
  len : W
deriving DecidableEq

/-- State of the spec-modelled edge-contraction loop: a cluster id per node,
plus the current cluster-space edges. -/
structure AggState where
  assign : List Nat
  cedges : List CEdge
deriving DecidableEq

/-- Modelled from the spec: the seed class carried by a cluster (the seed of
its seeded members; clusters never mix two distinct nonzero seed classes). -/
def clusterSeed (seeds assign : List Nat) (c : Nat) : Nat :=
  match (seeds.zip assign).find? (fun p => p.2 = c ∧ p.1 ≠ 0) with
  | some p => p.1
  | none => 0

/-- Modelled from the spec: an edge may be contracted when its two endpoint
clusters do not carry two different nonzero seed classes. -/
def contractible (seeds assign : List Nat) (e : CEdge) : Bool :=
  e.cu ≠ e.cv ∧
    (clusterSeed seeds assign e.cu = 0 ∨ clusterSeed seeds assign e.cv = 0 ∨
      clusterSeed seeds assign e.cu = clusterSeed seeds assign e.cv)

/-- Lowest-weight edge of a list (first one on ties), as the contraction
priority queue's pick. -/
def selectMin : List CEdge → Option CEdge
  | [] => none
  | e :: rest =>
    match selectMin rest with
    | none => some e
    | some m => if m.w.blt e.w then some m else some e

theorem selectMin_mem : ∀ {l : List CEdge} {e : CEdge}, selectMin l = some e → e ∈ l := by
  intro l
  induction l with
  | nil => intro e h; simp [selectMin] at h
  | cons a rest ih =>
    intro e h
    simp only [selectMin] at h
    cases hm : selectMin rest with
    | none =>
      rw [hm] at h
      dsimp only at h
      have : a = e := by injection h
      exact this ▸ List.mem_cons_self _ _
    | some m =>
      rw [hm] at h
      dsimp only at h
      split at h
      · have : m = e := by injection h
        exact List.mem_cons_of_mem _ (ih (this ▸ hm))
      · have : a = e := by injection h
        exact this ▸ List.mem_cons_self _ _

/-- Whether two cluster edges connect the same unordered pair of clusters. -/
def samePairB (e f : CEdge) : Bool :=
  (e.cu = f.cu ∧ e.cv = f.cv) ∨ (e.cu = f.cv ∧ e.cv = f.cu)

/-- Modelled from the spec: after a contraction, duplicate (parallel) edges
are combined via a weighted average of their weights, guided by the
accumulated edge lengths. Fueled for structural recursion; fuel is the
list length at the top-level call. -/
def combineParallelAux : Nat → List CEdge → List CEdge
  | 0, _ => []
  | _, [] => []
  | fuel+1, e :: rest =>
    let dups := rest.filter (fun f => samePairB e f)
    let tl := W.add e.len (W.sum (dups.map CEdge.len))
    let tw := W.div (W.add (W.mul e.w e.len) (W.sum (dups.map (fun f => W.mul f.w f.len)))) tl
    ⟨e.cu, e.cv, tw, tl⟩ :: combineParallelAux fuel (rest.filter (fun f => !samePairB e f))

def combineParallel (l : List CEdge) : List CEdge := combineParallelAux l.length l

theorem combineParallelAux_endpoints :
    ∀ (fuel : Nat) (l : List CEdge), ∀ e' ∈ combineParallelAux fuel l,
      ∃ e ∈ l, e'.cu = e.cu ∧ e'.cv = e.cv := by
  intro fuel
  induction fuel with
  | zero => intro l e' h; simp [combineParallelAux] at h
  | succ n ih =>
    intro l e' h
    cases l with
    | nil => simp [combineParallelAux] at h
    | cons e rest =>
      simp only [combineParallelAux, List.mem_cons] at h
      rcases h with rfl | h
      · exact ⟨e, List.mem_cons_self _ _, rfl, rfl⟩
      · obtain ⟨f, hf, hcu, hcv⟩ := ih _ _ h
        exact ⟨f, List.mem_cons_of_mem _ ((List.mem_filter.mp hf).1), hcu, hcv⟩

theorem combineParallel_endpoints {l : List CEdge} {e' : CEdge}
    (h : e' ∈ combineParallel l) : ∃ e ∈ l, e'.cu = e.cu ∧ e'.cv = e.cv :=
  combineParallelAux_endpoints _ _ _ h

/-- Rename cluster `b` to cluster `a` (the effect of contracting an edge
between clusters `a` and `b`). -/
def renameCluster (a b c : Nat) : Nat := if c = b then a else c

/-- Contract the edge between clusters `a` and `b`: relabel `b` as `a`,
drop the resulting self-loop edges, and combine parallel edges. -/
def mergeClusters (st : AggState) (a b : Nat) : AggState :=
  { assign := st.assign.map (renameCluster a b)
    cedges := combineParallel
      (((st.cedges.map (fun e => ⟨renameCluster a b e.cu, renameCluster a b e.cv, e.w, e.len⟩)).filter
        (fun e => e.cu ≠ e.cv))) }

/-- Modelled from the spec: greedy minimum-weight constrained edge
contraction (vigra's agglomerativeClustering at beta=0, wardness=0):
repeatedly contract the lowest-weight contractible edge until the number of
clusters reaches `numClasses` or no contractible edge remains. -/
def aggLoop (seeds : List Nat) (numClasses : Nat) : Nat → AggState → AggState
  | 0, st => st
  | fuel+1, st =>
    if (dedupKeepFirst st.assign).length ≤ numClasses then st
    else
      match selectMin (st.cedges.filter (contractible seeds st.assign)) with
      | none => st
      | some e => aggLoop seeds numClasses fuel (mergeClusters st e.cu e.cv)

/-- Post-processing of the raw agglomeration output
(cleave.py lines 216-246): collect the distinct (seed, agg) pairs, report
seed classes split across several agg ids, relabel unseeded agg ids to 0,
and map every agg id back into seed-class space. -/
def aggPostProcess (seeds assign : List Nat) : List Nat × List Nat × Bool :=
  let pairs := dedupKeepFirst (seeds.zip assign)
  let seededPairs := pairs.filter (fun p => p.1 ≠ 0)
  let seededAggs := seededPairs.map (fun p => p.2)
  let nonseededAggs := (pairs.filter (fun p => ¬ p.2 ∈ seededAggs)).map (fun p => p.2)
  let disconnected := (dedupKeepFirst (seededPairs.map (fun p => p.1))).filter
    (fun s => 1 < (seededPairs.filter (fun p => p.1 = s)).length)
  let aggToSeed := (seededPairs.map (fun p => (p.2, p.1))) ++ (nonseededAggs.map (fun a => (a, 0)))
  let out := assign.map (fun a => ((aggToSeed.lookup a).getD 0))
  (out, disconnected, !nonseededAggs.isEmpty)

/-- Embedding of `agglomerative_clustering(cleaned_edges, edge_weights,
seed_labels, num_classes)`; edges come paired with their weights. The
clustering itself is modelled from the spec (see `aggLoop`), the pre/post
processing follows the source. -/
def aggInitState (cleanedEdges : List ((Nat × Nat) × W)) (n : Nat) : AggState :=
  ⟨List.range n, cleanedEdges.map (fun r => ⟨r.1.1, r.1.2, r.2, 1⟩)⟩

/-- Cluster assignment produced by the spec-modelled contraction loop,
starting from singleton clusters. -/
def aggFinalAssign (cleanedEdges : List ((Nat × Nat) × W)) (seedLabels : List Nat)
    (numClasses : Option Nat) : List Nat :=
  (aggLoop seedLabels
    (numClasses.getD (dedupKeepFirst (seedLabels.filter (fun s => s ≠ 0))).length)
    seedLabels.length
    (aggInitState cleanedEdges seedLabels.length)).assign

def agglomerative_clustering (cleanedEdges : List ((Nat × Nat) × W)) (seedLabels : List Nat)
    (numClasses : Option Nat) : List Nat × List Nat × Bool :=
  aggPostProcess seedLabels (aggFinalAssign cleanedEdges seedLabels numClasses)

/-- Result record of `cleave` (namedtuple CleaveResults); the
`disconnected_components` set is embedded as a duplicate-free list. -/
structure CleaveResults where
  node_ids : List Nat
  output_labels : List Nat
  disconnected_components : List Nat
  contains_unlabeled_components : Bool
deriving DecidableEq

/-- Seed-label array of length `n` (cleave.py lines 74-78): start from
zeros and stamp each seed class over the dense indices of its node list,
in dict order. -/
def buildSeedLabels (n : Nat) (idx : Nat → Nat) (seeds : List (Nat × List Nat)) : List Nat :=
  seeds.foldl (fun acc cls => cls.2.foldl (fun acc2 v => acc2.set (idx v) cls.1) acc)
    (List.replicate n 0)

/-- Embedding of `cleave(edges, edge_weights, seeds_dict, node_ids)`:
clean the edges, relabel node ids to dense consecutive indices, build the
seed-label array, and delegate to `agglomerative_clustering`. -/
def cleaveConsEdges (edges : List (Nat × Nat)) (weights : List W) (node_ids : List Nat) :
    List ((Nat × Nat) × W) :=
  (cleanEdges edges weights).map
    (fun r => ((node_ids.indexOf r.1.1, node_ids.indexOf r.1.2), r.2))

def cleaveSeedLabels (seeds : List (Nat × List Nat)) (node_ids : List Nat) : List Nat :=
  buildSeedLabels node_ids.length (fun v => node_ids.indexOf v) seeds

def cleave (edges : List (Nat × Nat)) (weights : List W) (seeds : List (Nat × List Nat))
    (node_ids : List Nat) : CleaveResults :=
  let res := agglomerative_clustering (cleaveConsEdges edges weights node_ids)
    (cleaveSeedLabels seeds node_ids) none
  ⟨node_ids, res.1, res.2.1, res.2.2⟩

/-- Contents of the caller-owned input buffers after `cleave` returns.
The source's only in-place write to a caller-owned object is
`edges.sort(axis=1)` (cleave.py line 60), which sorts each edge row;
`edge_weights` is never written, and each seed node list is passed through
`np.asarray(..., dtype=np.uint64)`, which copies a Python list, so
`apply_inplace` (line 77) hits the copy. -/
def cleaveCallerState (edges : List (Nat × Nat)) (weights : List W)
    (seeds : List (Nat × List Nat)) :
    List (Nat × Nat) × List W × List (Nat × List Nat) :=
  (edges.map sortPair, weights, seeds)

theorem map_sortPair_eq_self_iff (edges : List (Nat × Nat)) :
    edges.map sortPair = edges ↔ ∀ p ∈ edges, p.1 ≤ p.2 := by
  induction edges with
  | nil => simp
  | cons a l ih =>
    simp only [List.map_cons, List.cons.injEq, List.mem_cons]
    constructor
    · rintro ⟨ha, hl⟩
      intro p hp
      rcases hp with rfl | hp
      · unfold sortPair at ha
        split at ha
        · assumption
        · have h1 : p.2 = p.1 := congrArg Prod.fst ha
          omega
      · exact (ih.mp hl) p hp
    · intro h
      refine ⟨?_, ih.mpr (fun p hp => h p (Or.inr hp))⟩
      unfold sortPair
      rw [if_pos (h a (Or.inl rfl))]

/-! ## Claim theorems for the cleaving engine (concrete parts) -/

/-- C1: for a graph made of two disjoint triangles (nodes 1-3 and 4-6, no
cross edges), where every node of triangle A carries seed class 1 and every
node of triangle B carries seed class 2, cleave labels all of A's nodes 1
and all of B's nodes 2 (in node_ids order), returns an empty
disconnected_components set, and contains_unlabeled_components = False. -/
theorem cleave_two_disjoint_triangles :
    cleave [(1,2),(2,3),(1,3),(4,5),(5,6),(4,6)] [1,2,3,4,5,6]
      [(1,[1,2,3]),(2,[4,5,6])] [1,2,3,4,5,6] =
    ⟨[1,2,3,4,5,6], [1,1,1,2,2,2], [], false⟩ := by decide

/-- C4: the edge-cleaning step canonicalizes each pair to sorted order,
drops duplicate unordered pairs keeping the most recently listed weight, and
removes self-loops; in particular edges [(2,1),(1,2),(3,3)] with weights
[5,9,1] reduce to the single edge (1,2) with weight 9, and in general every
cleaned row has a strictly sorted pair and no pair is duplicated. -/
theorem cleanEdges_canonicalizes :
    cleanEdges [(2,1),(1,2),(3,3)] [5,9,1] = [((1,2),9)] ∧
    ∀ (edges : List (Nat × Nat)) (weights : List W),
      (∀ r ∈ cleanEdges edges weights, r.1.1 < r.1.2) ∧
      ((cleanEdges edges weights).map (fun r => r.1)).Nodup := by
  refine ⟨by decide, fun edges weights => ⟨?_, cleanEdges_pairs_nodup edges weights⟩⟩
  intro r hr
  exact cleanEdges_pair_sorted hr

theorem cleanEdges_canonicalizes_witness :
    (((1:Nat),(2:Nat)),(9:W)).1.1 < (((1:Nat),(2:Nat)),(9:W)).1.2 ∧
    ((cleanEdges [(2,1),(1,2),(3,3)] [5,9,1]).map (fun r => r.1)).Nodup :=
  ⟨(cleanEdges_canonicalizes.2 [(2,1),(1,2),(3,3)] [5,9,1]).1 ((1,2),9) (by decide),
   (cleanEdges_canonicalizes.2 [(2,1),(1,2),(3,3)] [5,9,1]).2⟩

/-- C9 counterexample: cleave does not operate purely by value on its
inputs: the in-place `edges.sort(axis=1)` changes the caller's edges array
whenever some row is in descending order, e.g. edges = [(2,1)] is left
holding [(1,2)] after the call. -/
theorem cleave_mutates_edges :
    (cleaveCallerState [(2,1)] [5] []).1 ≠ [(2,1)] := by decide

/-- C9 amended: after a cleave call the caller's edge_weights and the node
id lists inside seeds_dict are unchanged, and the caller's edges array holds
the row-wise sorted version of its original contents, so it is unchanged
exactly when every row was already in nondecreasing order. -/
theorem cleave_caller_state :
    ∀ (edges : List (Nat × Nat)) (weights : List W) (seeds : List (Nat × List Nat)),
      (cleaveCallerState edges weights seeds).2.1 = weights ∧
      (cleaveCallerState edges weights seeds).2.2 = seeds ∧
      (cleaveCallerState edges weights seeds).1 = edges.map sortPair ∧
      ((cleaveCallerState edges weights seeds).1 = edges ↔ ∀ p ∈ edges, p.1 ≤ p.2) :=
  fun edges weights seeds =>
    ⟨rfl, rfl, rfl, map_sortPair_eq_self_iff edges⟩

theorem cleave_caller_state_witness :
    (cleaveCallerState [(1,2),(3,3)] [5,9] [(1,[1])]).2.1 = [5,9] ∧
    (cleaveCallerState [(1,2),(3,3)] [5,9] [(1,[1])]).1 = [(1,2),(3,3)] :=
  ⟨(cleave_caller_state [(1,2),(3,3)] [5,9] [(1,[1])]).1,
   ((cleave_caller_state [(1,2),(3,3)] [5,9] [(1,[1])]).2.2.2).mpr (by decide)⟩

/-! ## Connectivity and invariants of the contraction loop -/

/-- Undirected connectivity generated by an edge list. -/
inductive Conn (E : List (Nat × Nat)) : Nat → Nat → Prop
  | refl (u : Nat) : Conn E u u
  | step {u v w : Nat} : Conn E u v → ((v, w) ∈ E ∨ (w, v) ∈ E) → Conn E u w

theorem Conn.trans' {E : List (Nat × Nat)} {u v w : Nat}
    (h1 : Conn E u v) (h2 : Conn E v w) : Conn E u w := by
  induction h2 with
  | refl => exact h1
  | step _ hadj ih => exact Conn.step ih hadj

theorem Conn.symm' {E : List (Nat × Nat)} {u v : Nat} (h : Conn E u v) : Conn E v u := by
  induction h with
  | refl => exact Conn.refl _
  | step _ hadj ih =>
    refine Conn.trans' (Conn.step (Conn.refl _) ?_) ih
    tauto

/-- Generic preservation lemma for the contraction loop: any property stable
under contraction of a contractible edge holds for the loop's result. -/
theorem aggLoop_preserves (Q : AggState → Prop) (seeds : List Nat) (nc : Nat)
    (hstep : ∀ st e, Q st → e ∈ st.cedges.filter (contractible seeds st.assign) →
      Q (mergeClusters st e.cu e.cv)) :
    ∀ (fuel : Nat) (st : AggState), Q st → Q (aggLoop seeds nc fuel st) := by
  intro fuel
  induction fuel with
  | zero => intro st h; exact h
  | succ n ih =>
    intro st h
    simp only [aggLoop]
    split
    · exact h
    · split
      · exact h
      · next e hsel => exact ih _ (hstep st e h (selectMin_mem hsel))

theorem lookup_eq_none_of_not_mem_keys {l : List (Nat × Nat)} {a : Nat}
    (h : a ∉ l.map Prod.fst) : l.lookup a = none := by
  induction l with
  | nil => rfl
  | cons p rest ih =>
    obtain ⟨k, v⟩ := p
    simp only [List.map_cons, List.mem_cons] at h
    push_neg at h
    have hba : (a == k) = false := by simp [h.1]
    rw [List.lookup_cons, hba]
    exact ih h.2

theorem lookup_append_right {l₁ l₂ : List (Nat × Nat)} {a : Nat}
    (h : l₁.lookup a = none) : (l₁ ++ l₂).lookup a = l₂.lookup a := by
  induction l₁ with
  | nil => rfl
  | cons p rest ih =>
    obtain ⟨k, v⟩ := p
    rw [List.cons_append, List.lookup_cons]
    rw [List.lookup_cons] at h
    by_cases hak : a = k
    · have hba : (a == k) = true := by simp [hak]
      rw [hba] at h
      dsimp only at h
      exact absurd h (by simp)
    · have hba : (a == k) = false := by simp [hak]
      rw [hba] at h ⊢
      dsimp only at h ⊢
      exact ih h

theorem lookup_append_left {l₁ l₂ : List (Nat × Nat)} {a b : Nat}
    (h : l₁.lookup a = some b) : (l₁ ++ l₂).lookup a = some b := by
  induction l₁ with
  | nil => simp at h
  | cons p rest ih =>
    obtain ⟨k, v⟩ := p
    rw [List.cons_append, List.lookup_cons]
    rw [List.lookup_cons] at h
    by_cases hak : a = k
    · have hba : (a == k) = true := by simp [hak]
      rw [hba] at h ⊢
      dsimp only at h ⊢
      exact h
    · have hba : (a == k) = false := by simp [hak]
      rw [hba] at h ⊢
      dsimp only at h ⊢
      exact ih h

theorem lookup_mem {l : List (Nat × Nat)} {a b : Nat} (h : l.lookup a = some b) : (a, b) ∈ l := by
  induction l with
  | nil => simp at h
  | cons p rest ih =>
    obtain ⟨k, v⟩ := p
    rw [List.lookup_cons] at h
    by_cases hak : a = k
    · have hba : (a == k) = true := by simp [hak]
      rw [hba] at h
      dsimp only at h
      have hb : v = b := by simpa using h
      rw [hak, ← hb]
      exact List.mem_cons_self _ _
    · have hba : (a == k) = false := by simp [hak]
      rw [hba] at h
      dsimp only at h
      exact List.mem_cons_of_mem _ (ih h)

theorem lookup_const_map {l : List Nat} {a c : Nat} (h : a ∈ l) :
    (l.map (fun x => (x, c))).lookup a = some c := by
  induction l with
  | nil => cases h
  | cons x rest ih =>
    rw [List.map_cons, List.lookup_cons]
    by_cases hax : a = x
    · have hba : (a == x) = true := by simp [hax]
      rw [hba]
    · have hba : (a == x) = false := by simp [hax]
      rw [hba]
      dsimp only
      rcases List.mem_cons.mp h with rfl | hmem
      · exact absurd rfl hax
      · exact ih hmem

theorem lookup_isSome_of_mem_keys {l : List (Nat × Nat)} {a : Nat}
    (h : a ∈ l.map Prod.fst) : ∃ b, l.lookup a = some b := by
  induction l with
  | nil => simp at h
  | cons p rest ih =>
    rw [List.lookup_cons]
    cases hba : (a == p.1) with
    | true => exact ⟨p.2, rfl⟩
    | false =>
      simp only [List.map_cons, List.mem_cons] at h
      rcases h with h | h
      · rw [h] at hba; simp at hba
      · exact ih h

theorem getElem?_zip_eq_some {l1 l2 : List Nat} {i a b : Nat}
    (h1 : l1[i]? = some a) (h2 : l2[i]? = some b) : (l1.zip l2)[i]? = some (a, b) := by
  obtain ⟨hi1, hv1⟩ := List.getElem?_eq_some.mp h1
  obtain ⟨hi2, hv2⟩ := List.getElem?_eq_some.mp h2
  have hiz : i < (l1.zip l2).length := by
    rw [List.length_zip]
    omega
  rw [List.getElem?_eq_some]
  exact ⟨hiz, by rw [List.getElem_zip, hv1, hv2]⟩

theorem getElem?_zip_elim {l1 l2 : List Nat} {i : Nat} {p : Nat × Nat}
    (h : (l1.zip l2)[i]? = some p) : l1[i]? = some p.1 ∧ l2[i]? = some p.2 := by
  obtain ⟨hi, hv⟩ := List.getElem?_eq_some.mp h
  have hlen := hi
  rw [List.length_zip] at hlen
  have h1 : i < l1.length := by omega
  have h2 : i < l2.length := by omega
  rw [List.getElem_zip] at hv
  constructor
  · rw [List.getElem?_eq_some]
    exact ⟨h1, by rw [show l1[i] = p.1 from congrArg Prod.fst hv]⟩
  · rw [List.getElem?_eq_some]
    exact ⟨h2, by rw [show l2[i] = p.2 from congrArg Prod.snd hv]⟩

theorem not_isEmpty_of_mem {α : Type} {a : α} {l : List α} (h : a ∈ l) : (!l.isEmpty) = true := by
  cases l with
  | nil => cases h
  | cons x xs => rfl

theorem mem_zip_iff_getElem? {l1 l2 : List Nat} {p : Nat × Nat} :
    p ∈ l1.zip l2 ↔ ∃ i : Nat, l1[i]? = some p.1 ∧ l2[i]? = some p.2 := by
  rw [List.mem_iff_getElem?]
  constructor
  · rintro ⟨i, h⟩
    exact ⟨i, getElem?_zip_elim h⟩
  · rintro ⟨i, h1, h2⟩
    exact ⟨i, getElem?_zip_eq_some h1 h2⟩

/-- Provenance of cleaned-edge endpoints: every cleaned row's pair is an
input pair or its swap. -/
theorem cleanEdges_pair_provenance {edges : List (Nat × Nat)} {weights : List W}
    {r : (Nat × Nat) × W} (h : r ∈ cleanEdges edges weights) :
    ∃ p ∈ edges, r.1 = p ∨ r.1 = (p.2, p.1) := by
  have hmem : r ∈ dropDupPairsKeepLast ((edges.map sortPair).zip weights) :=
    (List.mem_filter.mp h).1
  have hzip : r ∈ (edges.map sortPair).zip weights :=
    (dropDupPairsKeepLast_sublist _).mem hmem
  have h1 : r.1 ∈ edges.map sortPair := (List.of_mem_zip hzip).1
  obtain ⟨p, hp, hps⟩ := List.mem_map.mp h1
  refine ⟨p, hp, ?_⟩
  unfold sortPair at hps
  split at hps
  · left; exact hps.symm
  · right; exact hps.symm

/-- Invariant for an isolated node at dense index `i`: it keeps its own
cluster id, no other node shares that id, and no cluster edge touches it. -/
def IsolatedInv (i : Nat) (st : AggState) : Prop :=
  st.assign[i]? = some i ∧
  (∀ j, j ≠ i → st.assign[j]? ≠ some i) ∧
  (∀ e ∈ st.cedges, e.cu ≠ i ∧ e.cv ≠ i)

theorem isolatedInv_merge (seeds : List Nat) (i : Nat) (st : AggState) (e : CEdge)
    (hinv : IsolatedInv i st)
    (hmem : e ∈ st.cedges.filter (contractible seeds st.assign)) :
    IsolatedInv i (mergeClusters st e.cu e.cv) := by
  obtain ⟨h1, h2, h3⟩ := hinv
  obtain ⟨hcu, hcv⟩ := h3 e (List.mem_of_mem_filter hmem)
  refine ⟨?_, ?_, ?_⟩
  · show (st.assign.map (renameCluster e.cu e.cv))[i]? = some i
    rw [List.getElem?_map, h1]
    simp only [Option.map_some']
    unfold renameCluster
    rw [if_neg (fun hc => hcv hc.symm)]
  · intro j hj
    show (st.assign.map (renameCluster e.cu e.cv))[j]? ≠ some i
    rw [List.getElem?_map]
    cases hja : st.assign[j]? with
    | none => simp
    | some c =>
      simp only [Option.map_some', ne_eq, Option.some.injEq]
      unfold renameCluster
      split
      · exact fun hc => hcu hc
      · intro hc
        exact h2 j hj (hja.trans (congrArg some hc))
  · intro e' he'
    obtain ⟨g, hg, hgu, hgv⟩ := combineParallel_endpoints he'
    have hgmap : g ∈ st.cedges.map
        (fun f => CEdge.mk (renameCluster e.cu e.cv f.cu) (renameCluster e.cu e.cv f.cv) f.w f.len) :=
      List.mem_of_mem_filter hg
    obtain ⟨f, hf, hgf⟩ := List.mem_map.mp hgmap
    obtain ⟨hfu, hfv⟩ := h3 f hf
    have hrn : ∀ c, c ≠ i → renameCluster e.cu e.cv c ≠ i := by
      intro c hc
      unfold renameCluster
      split
      · exact hcu
      · exact hc
    constructor
    · rw [hgu, ← hgf]
      exact hrn f.cu hfu
    · rw [hgv, ← hgf]
      exact hrn f.cv hfv

/-- Post-processing sends an unseeded node that sits alone in its own
cluster to label 0 and reports an unlabeled component. -/
theorem aggPostProcess_unseeded_singleton (seeds assign : List Nat) (i : Nat)
    (hai : assign[i]? = some i)
    (hother : ∀ j, j ≠ i → assign[j]? ≠ some i)
    (hsi : seeds[i]? = some 0) :
    (aggPostProcess seeds assign).1[i]? = some 0 ∧ (aggPostProcess seeds assign).2.2 = true := by
  have hzipi : (seeds.zip assign)[i]? = some (0, i) := getElem?_zip_eq_some hsi hai
  have hmemzip : ((0 : Nat), i) ∈ seeds.zip assign := List.mem_iff_getElem?.mpr ⟨i, hzipi⟩
  have hmempairs : ((0 : Nat), i) ∈ dedupKeepFirst (seeds.zip assign) :=
    mem_dedupKeepFirst.mpr hmemzip
  have hseededAggs : i ∉ ((dedupKeepFirst (seeds.zip assign)).filter
      (fun p => p.1 ≠ 0)).map (fun p => p.2) := by
    intro hc
    obtain ⟨p, hp, hpi⟩ := List.mem_map.mp hc
    have hpz : p ∈ seeds.zip assign := mem_dedupKeepFirst.mp (List.mem_of_mem_filter hp)
    have hp1 : p.1 ≠ 0 := by
      have := (List.mem_filter.mp hp).2
      simpa using this
    obtain ⟨j, hj1, hj2⟩ := mem_zip_iff_getElem?.mp hpz
    have hji : j = i := by
      by_contra hne
      exact hother j hne (by rw [hj2, hpi])
    rw [hji, hsi] at hj1
    exact hp1 (by simpa using hj1.symm)
  have hmemnons : i ∈ ((dedupKeepFirst (seeds.zip assign)).filter
      (fun p => ¬ p.2 ∈ ((dedupKeepFirst (seeds.zip assign)).filter
        (fun p => p.1 ≠ 0)).map (fun p => p.2))).map (fun p => p.2) := by
    refine List.mem_map.mpr ⟨(0, i), ?_, rfl⟩
    refine List.mem_filter.mpr ⟨hmempairs, ?_⟩
    simpa using hseededAggs
  constructor
  · show (assign.map _)[i]? = some 0
    rw [List.getElem?_map, hai]
    simp only [Option.map_some', Option.some.injEq]
    have hkeys : i ∉ (((dedupKeepFirst (seeds.zip assign)).filter
        (fun p => p.1 ≠ 0)).map (fun p => (p.2, p.1))).map Prod.fst := by
      rw [List.map_map]
      exact hseededAggs
    rw [lookup_append_right (lookup_eq_none_of_not_mem_keys hkeys)]
    rw [lookup_const_map hmemnons]
    rfl
  · exact not_isEmpty_of_mem hmemnons

theorem setFold_length (idx : Nat → Nat) (c : Nat) :
    ∀ (vs : List Nat) (acc : List Nat),
      (vs.foldl (fun a v => a.set (idx v) c) acc).length = acc.length := by
  intro vs
  induction vs with
  | nil => intro acc; rfl
  | cons v rest ih =>
    intro acc
    rw [List.foldl_cons, ih, List.length_set]

theorem setFold_getElem?_untouched (idx : Nat → Nat) (c : Nat) :
    ∀ (vs : List Nat) (acc : List Nat) (i : Nat), (∀ v ∈ vs, idx v ≠ i) →
      (vs.foldl (fun a v => a.set (idx v) c) acc)[i]? = acc[i]? := by
  intro vs
  induction vs with
  | nil => intro acc i _; rfl
  | cons v rest ih =>
    intro acc i h
    rw [List.foldl_cons, ih _ _ (fun v' hv' => h v' (List.mem_cons_of_mem _ hv')),
      List.getElem?_set_ne (h v (List.mem_cons_self _ _))]

theorem setFold_getElem?_touched (idx : Nat → Nat) (c : Nat) :
    ∀ (vs : List Nat) (acc : List Nat) (i : Nat), i < acc.length → (∃ v ∈ vs, idx v = i) →
      (vs.foldl (fun a v => a.set (idx v) c) acc)[i]? = some c := by
  intro vs
  induction vs with
  | nil => rintro acc i _ ⟨v, hv, _⟩; cases hv
  | cons v rest ih =>
    intro acc i hlen hex
    rw [List.foldl_cons]
    by_cases hrest : ∃ v' ∈ rest, idx v' = i
    · exact ih _ _ (by rw [List.length_set]; exact hlen) hrest
    · push_neg at hrest
      obtain ⟨v0, hv0, hvi⟩ := hex
      have hv0v : v0 = v := by
        rcases List.mem_cons.mp hv0 with rfl | hmem
        · rfl
        · exact absurd hvi (hrest v0 hmem)
      rw [setFold_getElem?_untouched idx c rest _ i hrest]
      rw [← hv0v, hvi]
      exact List.getElem?_set_self hlen

theorem buildSeedLabels_length (n : Nat) (idx : Nat → Nat) (seeds : List (Nat × List Nat)) :
    (buildSeedLabels n idx seeds).length = n := by
  unfold buildSeedLabels
  suffices h : ∀ (s : List (Nat × List Nat)) (acc : List Nat),
      (s.foldl (fun acc cls => cls.2.foldl (fun acc2 v => acc2.set (idx v) cls.1) acc) acc).length
        = acc.length by
    rw [h]; exact List.length_replicate _ _
  intro s
  induction s with
  | nil => intro acc; rfl
  | cons cls rest ih =>
    intro acc
    rw [List.foldl_cons, ih, setFold_length]

theorem seedFold_getElem?_untouched (idx : Nat → Nat) :
    ∀ (s : List (Nat × List Nat)) (acc : List Nat) (i : Nat),
      (∀ cls ∈ s, ∀ v ∈ cls.2, idx v ≠ i) →
      (s.foldl (fun acc cls => cls.2.foldl (fun acc2 v => acc2.set (idx v) cls.1) acc) acc)[i]?
        = acc[i]? := by
  intro s
  induction s with
  | nil => intro acc i _; rfl
  | cons cls rest ih =>
    intro acc i h
    rw [List.foldl_cons, ih _ _ (fun c hc => h c (List.mem_cons_of_mem _ hc)),
      setFold_getElem?_untouched idx cls.1 cls.2 acc i (h cls (List.mem_cons_self _ _))]

theorem buildSeedLabels_untouched (n : Nat) (idx : Nat → Nat) (seeds : List (Nat × List Nat))
    (i : Nat) (hi : i < n) (h : ∀ cls ∈ seeds, ∀ v ∈ cls.2, idx v ≠ i) :
    (buildSeedLabels n idx seeds)[i]? = some 0 := by
  unfold buildSeedLabels
  rw [seedFold_getElem?_untouched idx seeds _ i h]
  rw [List.getElem?_replicate]
  rw [if_pos hi]

theorem buildSeedLabels_value (n : Nat) (idx : Nat → Nat) (i c : Nat) :
    ∀ (seeds : List (Nat × List Nat)) (acc : List Nat), acc.length = n → i < n →
      (∃ cls ∈ seeds, cls.1 = c ∧ ∃ v ∈ cls.2, idx v = i) →
      (∀ cls ∈ seeds, (∃ v ∈ cls.2, idx v = i) → cls.1 = c) →
      (seeds.foldl (fun acc cls => cls.2.foldl (fun acc2 v => acc2.set (idx v) cls.1) acc) acc)[i]?
        = some c := by
  intro seeds
  induction seeds with
  | nil => rintro acc _ _ ⟨cls, hcls, _⟩ _; cases hcls
  | cons cls rest ih =>
    intro acc hlen hi hsome huniq
    rw [List.foldl_cons]
    by_cases hrest : ∃ cls' ∈ rest, cls'.1 = c ∧ ∃ v ∈ cls'.2, idx v = i
    · exact ih _ (by rw [setFold_length]; exact hlen) hi hrest
        (fun cls' hc' => huniq cls' (List.mem_cons_of_mem _ hc'))
    · -- the head class is the (only) one touching i
      obtain ⟨cls0, hcls0, hc0, hv0⟩ := hsome
      have hcls0head : cls0 = cls := by
        rcases List.mem_cons.mp hcls0 with rfl | hmem
        · rfl
        · exact absurd ⟨cls0, hmem, hc0, hv0⟩ hrest
      have hresttouch : ∀ cls' ∈ rest, ∀ v ∈ cls'.2, idx v ≠ i := by
        intro cls' hc' v hv hvi
        exact hrest ⟨cls', hc', huniq cls' (List.mem_cons_of_mem _ hc') ⟨v, hv, hvi⟩, v, hv, hvi⟩
      rw [seedFold_getElem?_untouched idx rest _ i hresttouch]
      have : cls.1 = c := by rw [← hcls0head, hc0]
      rw [← this]
      exact setFold_getElem?_touched idx cls.1 cls.2 acc i (by omega)
        (hcls0head ▸ hv0)

/-- C2: for every cleave call with a non-empty edge list, an extra node id
in node_ids that appears in no edge and in no seed list receives output
label 0, and contains_unlabeled_components is True. -/
theorem cleave_extra_node_unlabeled
    (edges : List (Nat × Nat)) (weights : List W) (seeds : List (Nat × List Nat))
    (node_ids : List Nat) (extra : Nat)
    (hmem : extra ∈ node_ids)
    (hedges : edges ≠ [])
    (hend : ∀ p ∈ edges, p.1 ∈ node_ids ∧ p.2 ∈ node_ids ∧ p.1 ≠ extra ∧ p.2 ≠ extra)
    (hseeds : ∀ cls ∈ seeds, ∀ v ∈ cls.2, v ∈ node_ids ∧ v ≠ extra) :
    (cleave edges weights seeds node_ids).output_labels[node_ids.indexOf extra]? = some 0 ∧
    (cleave edges weights seeds node_ids).contains_unlabeled_components = true := by
  have hin : node_ids.indexOf extra < node_ids.length := List.indexOf_lt_length.mpr hmem
  have hidx_ne : ∀ u ∈ node_ids, u ≠ extra → node_ids.indexOf u ≠ node_ids.indexOf extra :=
    fun u hu hne hc => hne ((List.indexOf_inj hu hmem).mp hc)
  have hsl_len : (cleaveSeedLabels seeds node_ids).length = node_ids.length :=
    buildSeedLabels_length _ _ _
  -- initial invariant
  have hinit : IsolatedInv (node_ids.indexOf extra)
      (aggInitState (cleaveConsEdges edges weights node_ids)
        (cleaveSeedLabels seeds node_ids).length) := by
    refine ⟨?_, ?_, ?_⟩
    · show (List.range (cleaveSeedLabels seeds node_ids).length)[node_ids.indexOf extra]?
        = some (node_ids.indexOf extra)
      rw [hsl_len]
      exact List.getElem?_range hin
    · intro j hj
      show (List.range (cleaveSeedLabels seeds node_ids).length)[j]? ≠ _
      rw [hsl_len]
      by_cases hjn : j < node_ids.length
      · rw [List.getElem?_range hjn]
        simpa using hj
      · rw [List.getElem?_eq_none (by rw [List.length_range]; omega)]
        simp
    · intro e he
      obtain ⟨r, hr, hre⟩ := List.mem_map.mp he
      obtain ⟨r0, hr0, hr0e⟩ := List.mem_map.mp hr
      obtain ⟨p, hp, hps⟩ := cleanEdges_pair_provenance hr0
      obtain ⟨hp1, hp2, hp1e, hp2e⟩ := hend p hp
      have hcu : e.cu = node_ids.indexOf r0.1.1 := by rw [← hre, ← hr0e]
      have hcv : e.cv = node_ids.indexOf r0.1.2 := by rw [← hre, ← hr0e]
      rcases hps with heq | heq
      · constructor
        · rw [hcu, heq]; exact hidx_ne p.1 hp1 hp1e
        · rw [hcv, heq]; exact hidx_ne p.2 hp2 hp2e
      · constructor
        · rw [hcu, heq]; exact hidx_ne p.2 hp2 hp2e
        · rw [hcv, heq]; exact hidx_ne p.1 hp1 hp1e
  -- invariant propagates to the final state
  have hfin := aggLoop_preserves (IsolatedInv (node_ids.indexOf extra))
    (cleaveSeedLabels seeds node_ids)
    ((dedupKeepFirst ((cleaveSeedLabels seeds node_ids).filter (fun s => s ≠ 0))).length)
    (isolatedInv_merge (cleaveSeedLabels seeds node_ids) (node_ids.indexOf extra))
    (cleaveSeedLabels seeds node_ids).length
    (aggInitState (cleaveConsEdges edges weights node_ids) (cleaveSeedLabels seeds node_ids).length)
    hinit
  -- the extra node is unseeded
  have hsl0 : (cleaveSeedLabels seeds node_ids)[node_ids.indexOf extra]? = some 0 := by
    unfold cleaveSeedLabels
    refine buildSeedLabels_untouched _ _ _ _ hin ?_
    intro cls hcls v hv
    obtain ⟨hvmem, hvne⟩ := hseeds cls hcls v hv
    exact hidx_ne v hvmem hvne
  exact aggPostProcess_unseeded_singleton _ _ _ hfin.1 hfin.2.1 hsl0

theorem one_lt_length_of_two_mem {α : Type} {l : List α} {x y : α}
    (hx : x ∈ l) (hy : y ∈ l) (hxy : x ≠ y) : 1 < l.length := by
  cases l with
  | nil => cases hx
  | cons a rest =>
    cases rest with
    | nil =>
      have hx' : x = a := by simpa using hx
      have hy' : y = a := by simpa using hy
      exact absurd (hx'.trans hy'.symm) hxy
    | cons b r2 => simp only [List.length_cons]; omega

/-- Characterization of a cluster's seed class under the no-mixing
invariant. -/
theorem clusterSeed_of_member {seeds assign : List Nat}
    (hB : ∀ i j a si sj : Nat, assign[i]? = some a → assign[j]? = some a →
      seeds[i]? = some si → seeds[j]? = some sj → si ≠ 0 → sj ≠ 0 → si = sj)
    {k c sk : Nat} (hk : assign[k]? = some c) (hsk : seeds[k]? = some sk) (h0 : sk ≠ 0) :
    clusterSeed seeds assign c = sk := by
  unfold clusterSeed
  have hmem : (sk, c) ∈ seeds.zip assign := mem_zip_iff_getElem?.mpr ⟨k, hsk, hk⟩
  have hex : ∃ p ∈ seeds.zip assign, (fun p => decide (p.2 = c ∧ p.1 ≠ 0)) p = true :=
    ⟨(sk, c), hmem, by simpa using h0⟩
  cases hf : (seeds.zip assign).find? (fun p => decide (p.2 = c ∧ p.1 ≠ 0)) with
  | none =>
    rw [List.find?_eq_none] at hf
    obtain ⟨p, hp, hpr⟩ := hex
    exact absurd hpr (by simpa using hf p hp)
  | some q =>
    have hq := List.find?_some hf
    simp only [decide_eq_true_eq] at hq
    have hqmem : q ∈ seeds.zip assign := List.mem_of_find?_eq_some hf
    obtain ⟨k', hk's, hk'a⟩ := mem_zip_iff_getElem?.mp hqmem
    rw [hq.1] at hk'a
    dsimp only
    exact hB k' k c q.1 sk hk'a hk hk's hsk hq.2 h0

theorem clusterSeed_zero_member {seeds assign : List Nat}
    {k c sk : Nat} (hk : assign[k]? = some c) (hsk : seeds[k]? = some sk)
    (hz : clusterSeed seeds assign c = 0) : sk = 0 := by
  by_contra h0
  have hmem : (sk, c) ∈ seeds.zip assign := mem_zip_iff_getElem?.mpr ⟨k, hsk, hk⟩
  unfold clusterSeed at hz
  cases hf : (seeds.zip assign).find? (fun p => decide (p.2 = c ∧ p.1 ≠ 0)) with
  | none =>
    rw [List.find?_eq_none] at hf
    have := hf (sk, c) hmem
    simp at this
    exact h0 this
  | some q =>
    rw [hf] at hz
    have hq := List.find?_some hf
    simp only [decide_eq_true_eq] at hq
    exact hq.2 (by simpa using hz)

/-- Invariant bundle: cluster assignments have fixed length, clusters refine
graph connectivity, cluster edges are witnessed by connected member nodes,
and no cluster mixes two distinct nonzero seed classes. -/
def SeedConnInv (D : List (Nat × Nat)) (seeds : List Nat) (st : AggState) : Prop :=
  st.assign.length = seeds.length ∧
  (∀ i j a : Nat, st.assign[i]? = some a → st.assign[j]? = some a → Conn D i j) ∧
  (∀ e ∈ st.cedges, ∃ i j : Nat,
    st.assign[i]? = some e.cu ∧ st.assign[j]? = some e.cv ∧ Conn D i j) ∧
  (∀ i j a si sj : Nat, st.assign[i]? = some a → st.assign[j]? = some a →
    seeds[i]? = some si → seeds[j]? = some sj → si ≠ 0 → sj ≠ 0 → si = sj)

theorem renameCluster_cases (a b x : Nat) :
    renameCluster a b x = a ∧ x = b ∨ renameCluster a b x = x ∧ x ≠ b := by
  by_cases h : x = b
  · refine Or.inl ⟨?_, h⟩
    unfold renameCluster
    rw [if_pos h]
  · refine Or.inr ⟨?_, h⟩
    unfold renameCluster
    rw [if_neg h]

theorem seedConnInv_merge (D : List (Nat × Nat)) (seeds : List Nat) (st : AggState) (e : CEdge)
    (hinv : SeedConnInv D seeds st)
    (hmem : e ∈ st.cedges.filter (contractible seeds st.assign)) :
    SeedConnInv D seeds (mergeClusters st e.cu e.cv) := by
  obtain ⟨hlen, hA, hE, hB⟩ := hinv
  have hein : e ∈ st.cedges := List.mem_of_mem_filter hmem
  have hcontr : contractible seeds st.assign e = true := (List.mem_filter.mp hmem).2
  unfold contractible at hcontr
  simp only [decide_eq_true_eq] at hcontr
  obtain ⟨ia, jb, hia, hjb, hConnab⟩ := hE e hein
  -- analysis of the rename map on cluster ids
  have hkey : ∀ x y : Nat, renameCluster e.cu e.cv x = renameCluster e.cu e.cv y →
      x = y ∨ (x = e.cu ∧ y = e.cv) ∨ (x = e.cv ∧ y = e.cu) := by
    intro x y h
    rcases renameCluster_cases e.cu e.cv x with ⟨hx, hxb⟩ | ⟨hx, hxb⟩ <;>
      rcases renameCluster_cases e.cu e.cv y with ⟨hy, hyb⟩ | ⟨hy, hyb⟩
    · left; rw [hxb, hyb]
    · rw [hx] at h; rw [hy] at h
      right; right; exact ⟨hxb, h.symm⟩
    · rw [hx] at h; rw [hy] at h
      right; left; exact ⟨h, hyb⟩
    · rw [hx] at h; rw [hy] at h
      left; exact h
  have hassign : ∀ (i : Nat) (c : Nat),
      (mergeClusters st e.cu e.cv).assign[i]? = some c ↔
      ∃ c0, st.assign[i]? = some c0 ∧ renameCluster e.cu e.cv c0 = c := by
    intro i c
    show (st.assign.map _)[i]? = some c ↔ _
    rw [List.getElem?_map]
    cases st.assign[i]? with
    | none => simp
    | some c0 => simp
  -- when two nodes share a cluster after the merge, they were connected
  have hconnect : ∀ i j c, (mergeClusters st e.cu e.cv).assign[i]? = some c →
      (mergeClusters st e.cu e.cv).assign[j]? = some c →
      Conn D i j ∨
      (st.assign[i]? = some e.cu ∧ st.assign[j]? = some e.cv) ∨
      (st.assign[i]? = some e.cv ∧ st.assign[j]? = some e.cu) := by
    intro i j c hi hj
    obtain ⟨ci, hci, hrci⟩ := (hassign i c).mp hi
    obtain ⟨cj, hcj, hrcj⟩ := (hassign j c).mp hj
    rcases hkey ci cj (hrci.trans hrcj.symm) with rfl | ⟨hcia, hcjb⟩ | ⟨hcib, hcja⟩
    · exact Or.inl (hA i j ci hci hcj)
    · exact Or.inr (Or.inl ⟨hcia ▸ hci, hcjb ▸ hcj⟩)
    · exact Or.inr (Or.inr ⟨hcib ▸ hci, hcja ▸ hcj⟩)
  have hconnD : ∀ i j c, (mergeClusters st e.cu e.cv).assign[i]? = some c →
      (mergeClusters st e.cu e.cv).assign[j]? = some c → Conn D i j := by
    intro i j c hi hj
    rcases hconnect i j c hi hj with h | ⟨h1, h2⟩ | ⟨h1, h2⟩
    · exact h
    · exact Conn.trans' (hA i ia _ h1 hia) (Conn.trans' hConnab (hA jb j _ hjb h2))
    · exact Conn.trans' (hA i jb _ h1 hjb) (Conn.trans' hConnab.symm' (hA ia j _ hia h2))
  refine ⟨?_, hconnD, ?_, ?_⟩
  · show (st.assign.map _).length = seeds.length
    rw [List.length_map]; exact hlen
  · intro e' he'
    obtain ⟨g, hg, hgu, hgv⟩ := combineParallel_endpoints he'
    obtain ⟨f, hf, hgf⟩ := List.mem_map.mp (List.mem_of_mem_filter hg)
    obtain ⟨i0, j0, hi0, hj0, hc0⟩ := hE f hf
    refine ⟨i0, j0, ?_, ?_, hc0⟩
    · rw [hassign]
      exact ⟨f.cu, hi0, by rw [← hgf] at hgu; rw [hgu]⟩
    · rw [hassign]
      exact ⟨f.cv, hj0, by rw [← hgf] at hgv; rw [hgv]⟩
  · intro i j c si sj hi hj hsi hsj hsi0 hsj0
    rcases hconnect i j c hi hj with hD | ⟨h1, h2⟩ | ⟨h1, h2⟩
    · -- same old cluster or already handled: recover old-cluster case
      obtain ⟨ci, hci, hrci⟩ := (hassign i c).mp hi
      obtain ⟨cj, hcj, hrcj⟩ := (hassign j c).mp hj
      rcases hkey ci cj (hrci.trans hrcj.symm) with rfl | ⟨hcia, hcjb⟩ | ⟨hcib, hcja⟩
      · exact hB i j ci si sj hci hcj hsi hsj hsi0 hsj0
      · have hcsu : clusterSeed seeds st.assign e.cu = si :=
          clusterSeed_of_member hB (hcia ▸ hci) hsi hsi0
        have hcsv : clusterSeed seeds st.assign e.cv = sj :=
          clusterSeed_of_member hB (hcjb ▸ hcj) hsj hsj0
        rcases hcontr.2 with hz | hz | hz
        · exact absurd (clusterSeed_zero_member (hcia ▸ hci) hsi hz) hsi0
        · exact absurd (clusterSeed_zero_member (hcjb ▸ hcj) hsj hz) hsj0
        · rw [← hcsu, ← hcsv]; exact hz
      · have hcsu : clusterSeed seeds st.assign e.cv = si :=
          clusterSeed_of_member hB (hcib ▸ hci) hsi hsi0
        have hcsv : clusterSeed seeds st.assign e.cu = sj :=
          clusterSeed_of_member hB (hcja ▸ hcj) hsj hsj0
        rcases hcontr.2 with hz | hz | hz
        · exact absurd (clusterSeed_zero_member (hcja ▸ hcj) hsj hz) hsj0
        · exact absurd (clusterSeed_zero_member (hcib ▸ hci) hsi hz) hsi0
        · rw [← hcsu, ← hcsv]; exact hz.symm
    · have hcsu : clusterSeed seeds st.assign e.cu = si :=
        clusterSeed_of_member hB h1 hsi hsi0
      have hcsv : clusterSeed seeds st.assign e.cv = sj :=
        clusterSeed_of_member hB h2 hsj hsj0
      rcases hcontr.2 with hz | hz | hz
      · exact absurd (clusterSeed_zero_member h1 hsi hz) hsi0
      · exact absurd (clusterSeed_zero_member h2 hsj hz) hsj0
      · rw [← hcsu, ← hcsv]; exact hz
    · have hcsu : clusterSeed seeds st.assign e.cv = si :=
        clusterSeed_of_member hB h1 hsi hsi0
      have hcsv : clusterSeed seeds st.assign e.cu = sj :=
        clusterSeed_of_member hB h2 hsj hsj0
      rcases hcontr.2 with hz | hz | hz
      · exact absurd (clusterSeed_zero_member h2 hsj hz) hsj0
      · exact absurd (clusterSeed_zero_member h1 hsi hz) hsi0
      · rw [← hcsu, ← hcsv]; exact hz.symm

theorem seedConnInv_init (seeds : List Nat) (cleanedEdges : List ((Nat × Nat) × W))
    (hD : ∀ r ∈ cleanedEdges, r.1.1 < seeds.length ∧ r.1.2 < seeds.length) :
    SeedConnInv (cleanedEdges.map (fun r => r.1)) seeds
      (aggInitState cleanedEdges seeds.length) := by
  have hrange : ∀ (i a : Nat), (List.range seeds.length)[i]? = some a → i = a := by
    intro i a h
    obtain ⟨hlt, hv⟩ := List.getElem?_eq_some.mp h
    rw [List.getElem_range] at hv
    exact hv
  refine ⟨by simp [aggInitState], ?_, ?_, ?_⟩
  · intro i j a hi hj
    have h1 := hrange i a hi
    have h2 := hrange j a hj
    rw [h1, ← h2]
    exact Conn.refl _
  · intro e he
    obtain ⟨r, hr, hre⟩ := List.mem_map.mp he
    obtain ⟨h1, h2⟩ := hD r hr
    refine ⟨r.1.1, r.1.2, ?_, ?_, ?_⟩
    · show (List.range seeds.length)[r.1.1]? = some e.cu
      rw [← hre]
      exact List.getElem?_range h1
    · show (List.range seeds.length)[r.1.2]? = some e.cv
      rw [← hre]
      exact List.getElem?_range h2
    · refine Conn.step (Conn.refl _) (Or.inl ?_)
      exact List.mem_map.mpr ⟨r, hr, rfl⟩
  · intro i j a si sj hi hj hsi hsj _ _
    have h1 := hrange i a hi
    have h2 := hrange j a hj
    rw [h1, ← h2] at hsi
    rw [hsi] at hsj
    injection hsj

/-- Connectivity in the dense (consecutively relabeled) graph transports
back to connectivity of the original node ids. -/
theorem conn_dense_to_orig (edges : List (Nat × Nat)) (weights : List W) (node_ids : List Nat)
    (hend : ∀ p ∈ edges, p.1 ∈ node_ids ∧ p.2 ∈ node_ids) :
    ∀ i j : Nat, Conn ((cleaveConsEdges edges weights node_ids).map (fun r => r.1)) i j →
      ∀ x, x ∈ node_ids → i = node_ids.indexOf x →
      ∀ y, y ∈ node_ids → j = node_ids.indexOf y → Conn edges x y := by
  intro i j hconn
  induction hconn with
  | refl =>
    intro x hx hix y hy hiy
    have : x = y := (List.indexOf_inj hx hy).mp (hix ▸ hiy ▸ rfl)
    rw [this]
    exact Conn.refl _
  | step hc hadj ih =>
    intro x hx hix y hy hjy
    rename_i v w
    -- the dense adjacency comes from a cleaned edge
    have hadj' : ∃ r ∈ cleaveConsEdges edges weights node_ids,
        r.1 = (v, w) ∨ r.1 = (w, v) := by
      rcases hadj with h | h
      · obtain ⟨r, hr, hre⟩ := List.mem_map.mp h
        exact ⟨r, hr, Or.inl hre⟩
      · obtain ⟨r, hr, hre⟩ := List.mem_map.mp h
        exact ⟨r, hr, Or.inr hre⟩
    obtain ⟨r, hr, hre⟩ := hadj'
    obtain ⟨r0, hr0, hr0e⟩ := List.mem_map.mp hr
    obtain ⟨p, hp, hps⟩ := cleanEdges_pair_provenance hr0
    obtain ⟨hp1, hp2⟩ := hend p hp
    have hr1 : r.1.1 = node_ids.indexOf r0.1.1 := by rw [← hr0e]
    have hr2 : r.1.2 = node_ids.indexOf r0.1.2 := by rw [← hr0e]
    -- identify the original endpoints u1 u2 of the dense pair (v, w)
    have hvw : ∃ u1 u2 : Nat, u1 ∈ node_ids ∧ u2 ∈ node_ids ∧
        v = node_ids.indexOf u1 ∧ w = node_ids.indexOf u2 ∧
        ((u1, u2) ∈ edges ∨ (u2, u1) ∈ edges) := by
      have hmem1 : r0.1.1 ∈ node_ids ∧ r0.1.2 ∈ node_ids := by
        rcases hps with heq | heq
        · rw [heq]; exact ⟨hp1, hp2⟩
        · rw [heq]; exact ⟨hp2, hp1⟩
      have hedge : (r0.1.1, r0.1.2) ∈ edges ∨ (r0.1.2, r0.1.1) ∈ edges := by
        rcases hps with heq | heq
        · left; rw [heq]; exact hp
        · right
          have h1 : r0.1.2 = p.1 := by rw [heq]
          have h2 : r0.1.1 = p.2 := by rw [heq]
          rw [h1, h2]
          exact hp
      rcases hre with heq | heq
      · refine ⟨r0.1.1, r0.1.2, hmem1.1, hmem1.2, ?_, ?_, hedge⟩
        · rw [← hr1, heq]
        · rw [← hr2, heq]
      · refine ⟨r0.1.2, r0.1.1, hmem1.2, hmem1.1, ?_, ?_, hedge.symm⟩
        · rw [← hr2, heq]
        · rw [← hr1, heq]
    obtain ⟨u1, u2, hu1, hu2, hv1, hw2, hadje⟩ := hvw
    have hxu1 : Conn edges x u1 := ih x hx hix u1 hu1 hv1
    have hu2y : u2 = y := (List.indexOf_inj hu2 hy).mp (hw2 ▸ hjy ▸ rfl)
    rw [← hu2y]
    exact Conn.step hxu1 (by tauto)

/-- Post-processing maps a node whose final cluster contains it and carries
its nonzero seed class back to that seed class. -/
theorem aggPostProcess_seeded (seeds assign : List Nat)
    (hB : ∀ i j a si sj : Nat, assign[i]? = some a → assign[j]? = some a →
      seeds[i]? = some si → seeds[j]? = some sj → si ≠ 0 → sj ≠ 0 → si = sj)
    {k s a : Nat} (hk : assign[k]? = some a) (hsk : seeds[k]? = some s) (hs0 : s ≠ 0) :
    (aggPostProcess seeds assign).1[k]? = some s := by
  have hmem : (s, a) ∈ seeds.zip assign := mem_zip_iff_getElem?.mpr ⟨k, hsk, hk⟩
  have hmemp : (s, a) ∈ dedupKeepFirst (seeds.zip assign) := mem_dedupKeepFirst.mpr hmem
  have hmemsp : (s, a) ∈ (dedupKeepFirst (seeds.zip assign)).filter (fun p => p.1 ≠ 0) :=
    List.mem_filter.mpr ⟨hmemp, by simpa using hs0⟩
  have hkeymem : a ∈ (((dedupKeepFirst (seeds.zip assign)).filter (fun p => p.1 ≠ 0)).map
      (fun p => (p.2, p.1))).map Prod.fst := by
    rw [List.map_map]
    exact List.mem_map.mpr ⟨(s, a), hmemsp, rfl⟩
  obtain ⟨b, hb⟩ := lookup_isSome_of_mem_keys hkeymem
  -- the looked-up value must be s by the no-mixing property
  have hbs : b = s := by
    have hpair := lookup_mem hb
    obtain ⟨q, hq, hqe⟩ := List.mem_map.mp hpair
    have hq2 : q.2 = a := congrArg Prod.fst hqe
    have hq1 : q.1 = b := congrArg Prod.snd hqe
    have hqz : q ∈ seeds.zip assign := mem_dedupKeepFirst.mp (List.mem_of_mem_filter hq)
    have hq10 : q.1 ≠ 0 := by
      have := (List.mem_filter.mp hq).2
      simpa using this
    obtain ⟨k', hk's, hk'a⟩ := mem_zip_iff_getElem?.mp hqz
    rw [hq2] at hk'a
    rw [hq1] at hk's
    rw [hq1] at hq10
    exact (hB k' k a b s hk'a hk hk's hsk hq10 hs0).symm ▸ rfl
  show (assign.map _)[k]? = some s
  rw [List.getElem?_map, hk]
  simp only [Option.map_some', Option.some.injEq]
  rw [lookup_append_left hb, hbs]
  rfl

/-- Post-processing reports a seed class whose nodes end in two different
clusters as a disconnected component. -/
theorem aggPostProcess_mem_disconnected (seeds assign : List Nat)
    {k1 k2 s a1 a2 : Nat}
    (hk1 : assign[k1]? = some a1) (hs1 : seeds[k1]? = some s)
    (hk2 : assign[k2]? = some a2) (hs2 : seeds[k2]? = some s)
    (hs0 : s ≠ 0) (hne : a1 ≠ a2) :
    s ∈ (aggPostProcess seeds assign).2.1 := by
  have hm1 : (s, a1) ∈ (dedupKeepFirst (seeds.zip assign)).filter (fun p => p.1 ≠ 0) :=
    List.mem_filter.mpr ⟨mem_dedupKeepFirst.mpr (mem_zip_iff_getElem?.mpr ⟨k1, hs1, hk1⟩),
      by simpa using hs0⟩
  have hm2 : (s, a2) ∈ (dedupKeepFirst (seeds.zip assign)).filter (fun p => p.1 ≠ 0) :=
    List.mem_filter.mpr ⟨mem_dedupKeepFirst.mpr (mem_zip_iff_getElem?.mpr ⟨k2, hs2, hk2⟩),
      by simpa using hs0⟩
  show s ∈ (dedupKeepFirst _).filter _
  refine List.mem_filter.mpr ⟨?_, ?_⟩
  · exact mem_dedupKeepFirst.mpr (List.mem_map.mpr ⟨(s, a1), hm1, rfl⟩)
  · have hm1' : (s, a1) ∈ ((dedupKeepFirst (seeds.zip assign)).filter
        (fun p => p.1 ≠ 0)).filter (fun p => p.1 = s) :=
      List.mem_filter.mpr ⟨hm1, by simp⟩
    have hm2' : (s, a2) ∈ ((dedupKeepFirst (seeds.zip assign)).filter
        (fun p => p.1 ≠ 0)).filter (fun p => p.1 = s) :=
      List.mem_filter.mpr ⟨hm2, by simp⟩
    have hlen := one_lt_length_of_two_mem hm1' hm2' (by
      intro hc
      exact hne (congrArg Prod.snd hc))
    simpa using hlen

/-- C3: for every cleave call in which one seed class is assigned to nodes
lying in two or more edge-disconnected subgraphs, that seed class is a
member of the returned disconnected_components set, and every node seeded
with that class still receives the seed class (not 0) in output_labels. -/
theorem cleave_split_seed_class
    (edges : List (Nat × Nat)) (weights : List W) (seeds : List (Nat × List Nat))
    (node_ids : List Nat) (s : Nat) (sNodes : List Nat) (x y : Nat)
    (hend : ∀ p ∈ edges, p.1 ∈ node_ids ∧ p.2 ∈ node_ids)
    (hseeds_mem : ∀ cls ∈ seeds, ∀ v ∈ cls.2, v ∈ node_ids)
    (hclass0 : ∀ cls ∈ seeds, cls.1 ≠ 0)
    (hdisj : ∀ c1 ∈ seeds, ∀ c2 ∈ seeds, ∀ v : Nat, v ∈ c1.2 → v ∈ c2.2 → c1.1 = c2.1)
    (hs : (s, sNodes) ∈ seeds) (hx : x ∈ sNodes) (hy : y ∈ sNodes)
    (hconn : ¬ Conn edges x y) :
    s ∈ (cleave edges weights seeds node_ids).disconnected_components ∧
    ∀ v ∈ sNodes,
      (cleave edges weights seeds node_ids).output_labels[node_ids.indexOf v]? = some s := by
  have hs0 : s ≠ 0 := hclass0 (s, sNodes) hs
  have hsl_len : (cleaveSeedLabels seeds node_ids).length = node_ids.length :=
    buildSeedLabels_length _ _ _
  -- seed-label array values for seeded nodes
  have hslv : ∀ v ∈ sNodes,
      (cleaveSeedLabels seeds node_ids)[node_ids.indexOf v]? = some s := by
    intro v hv
    have hvmem : v ∈ node_ids := hseeds_mem (s, sNodes) hs v hv
    have hivn : node_ids.indexOf v < node_ids.length := List.indexOf_lt_length.mpr hvmem
    unfold cleaveSeedLabels buildSeedLabels
    refine buildSeedLabels_value node_ids.length (fun u => node_ids.indexOf u)
      (node_ids.indexOf v) s seeds (List.replicate node_ids.length 0)
      (List.length_replicate _ _) hivn
      ⟨(s, sNodes), hs, rfl, v, hv, rfl⟩ ?_
    rintro cls hcls ⟨v', hv', hvv'⟩
    have hv'mem : v' ∈ node_ids := hseeds_mem cls hcls v' hv'
    have : v' = v := (List.indexOf_inj hv'mem hvmem).mp hvv'
    rw [this] at hv'
    exact hdisj cls hcls (s, sNodes) hs v hv' hv
  -- bounds for the dense edges
  have hD : ∀ r ∈ cleaveConsEdges edges weights node_ids,
      r.1.1 < (cleaveSeedLabels seeds node_ids).length ∧
      r.1.2 < (cleaveSeedLabels seeds node_ids).length := by
    intro r hr
    obtain ⟨r0, hr0, hr0e⟩ := List.mem_map.mp hr
    obtain ⟨p, hp, hps⟩ := cleanEdges_pair_provenance hr0
    obtain ⟨hp1, hp2⟩ := hend p hp
    have hm1 : r0.1.1 ∈ node_ids ∧ r0.1.2 ∈ node_ids := by
      rcases hps with heq | heq
      · rw [heq]; exact ⟨hp1, hp2⟩
      · rw [heq]; exact ⟨hp2, hp1⟩
    rw [hsl_len]
    constructor
    · rw [show r.1.1 = node_ids.indexOf r0.1.1 from by rw [← hr0e]]
      exact List.indexOf_lt_length.mpr hm1.1
    · rw [show r.1.2 = node_ids.indexOf r0.1.2 from by rw [← hr0e]]
      exact List.indexOf_lt_length.mpr hm1.2
  -- invariants hold at the end of the loop
  have hfin := aggLoop_preserves
    (SeedConnInv ((cleaveConsEdges edges weights node_ids).map (fun r => r.1))
      (cleaveSeedLabels seeds node_ids))
    (cleaveSeedLabels seeds node_ids)
    ((dedupKeepFirst ((cleaveSeedLabels seeds node_ids).filter (fun t => t ≠ 0))).length)
    (seedConnInv_merge _ _)
    (cleaveSeedLabels seeds node_ids).length
    (aggInitState (cleaveConsEdges edges weights node_ids)
      (cleaveSeedLabels seeds node_ids).length)
    (seedConnInv_init _ _ hD)
  obtain ⟨hlen, hA, hE, hB⟩ := hfin
  -- final cluster values exist for seeded nodes
  have hval : ∀ v ∈ sNodes, ∃ av : Nat,
      (aggFinalAssign (cleaveConsEdges edges weights node_ids)
        (cleaveSeedLabels seeds node_ids) none)[node_ids.indexOf v]? = some av := by
    intro v hv
    have hvmem : v ∈ node_ids := hseeds_mem (s, sNodes) hs v hv
    have hivn : node_ids.indexOf v < node_ids.length := List.indexOf_lt_length.mpr hvmem
    cases hav : (aggFinalAssign (cleaveConsEdges edges weights node_ids)
        (cleaveSeedLabels seeds node_ids) none)[node_ids.indexOf v]? with
    | none =>
      have := List.getElem?_eq_none_iff.mp hav
      have hlen' : (aggFinalAssign (cleaveConsEdges edges weights node_ids)
          (cleaveSeedLabels seeds node_ids) none).length = node_ids.length := by
        rw [show (aggFinalAssign (cleaveConsEdges edges weights node_ids)
          (cleaveSeedLabels seeds node_ids) none).length =
            (cleaveSeedLabels seeds node_ids).length from hlen, hsl_len]
      omega
    | some av => exact ⟨av, rfl⟩
  obtain ⟨ax, hax⟩ := hval x hx
  obtain ⟨ay, hay⟩ := hval y hy
  -- the two nodes end in different clusters
  have hne : ax ≠ ay := by
    intro heq
    rw [heq] at hax
    have hConnD := hA (node_ids.indexOf x) (node_ids.indexOf y) ay hax hay
    exact hconn (conn_dense_to_orig edges weights node_ids hend _ _ hConnD
      x (hseeds_mem (s, sNodes) hs x hx) rfl
      y (hseeds_mem (s, sNodes) hs y hy) rfl)
  constructor
  · exact aggPostProcess_mem_disconnected (cleaveSeedLabels seeds node_ids)
      (aggFinalAssign (cleaveConsEdges edges weights node_ids)
        (cleaveSeedLabels seeds node_ids) none)
      hax (hslv x hx) hay (hslv y hy) hs0 hne
  · intro v hv
    obtain ⟨av, hav⟩ := hval v hv
    exact aggPostProcess_seeded (cleaveSeedLabels seeds node_ids)
      (aggFinalAssign (cleaveConsEdges edges weights node_ids)
        (cleaveSeedLabels seeds node_ids) none)
      hB hav (hslv v hv) hs0

/-- Connectivity respects any node coloring under which every edge is
monochromatic; used to refute connectivity on concrete graphs. -/
theorem conn_constant {E : List (Nat × Nat)} (f : Nat → Nat)
    (hf : ∀ p ∈ E, f p.1 = f p.2) {u v : Nat} (h : Conn E u v) : f u = f v := by
  induction h with
  | refl => rfl
  | step hc hadj ih =>
    rcases hadj with h' | h'
    · exact ih.trans (hf _ h')
    · exact ih.trans (hf _ h').symm

theorem cleave_extra_node_unlabeled_witness :
    (cleave [(1,2)] [3] [(1,[1])] [1,2,7]).output_labels[List.indexOf 7 [1,2,7]]? = some 0 ∧
    (cleave [(1,2)] [3] [(1,[1])] [1,2,7]).contains_unlabeled_components = true :=
  cleave_extra_node_unlabeled [(1,2)] [3] [(1,[1])] [1,2,7] 7
    (by decide) (by decide) (by decide) (by decide)

theorem cleave_split_seed_class_witness :
    1 ∈ (cleave [(1,2),(3,4)] [5,6] [(1,[1,3])] [1,2,3,4]).disconnected_components ∧
    (cleave [(1,2),(3,4)] [5,6] [(1,[1,3])]
      [1,2,3,4]).output_labels[List.indexOf 3 [1,2,3,4]]? = some 1 := by
  have h := cleave_split_seed_class [(1,2),(3,4)] [5,6] [(1,[1,3])] [1,2,3,4] 1 [1,3] 1 3
    (by decide) (by decide) (by decide)
    (fun c1 hc1 c2 hc2 v hv1 hv2 => by
      have h1 : c1 = (1, [1,3]) := by simpa using hc1
      have h2 : c2 = (1, [1,3]) := by simpa using hc2
      rw [h1, h2])
    (by decide) (by decide) (by decide)
    (fun hc => by
      have := conn_constant (fun n => if n ≤ 2 then 0 else 1) (by decide) hc
      simp at this)
  exact ⟨h.1, h.2 3 (by decide)⟩

/-! ## Sorting infrastructure for tabular (pandas-style) operations -/

def insertSorted {α : Type} (le : α → α → Bool) (a : α) : List α → List α
  | [] => [a]
  | b :: l => if le a b then a :: b :: l else b :: insertSorted le a l

def sortByB {α : Type} (le : α → α → Bool) : List α → List α
  | [] => []
  | a :: l => insertSorted le a (sortByB le l)

theorem insertSorted_perm {α : Type} (le : α → α → Bool) (a : α) :
    ∀ (l : List α), (insertSorted le a l).Perm (a :: l) := by
  intro l
  induction l with
  | nil => simp [insertSorted]
  | cons b l ih =>
    by_cases h : le a b = true
    · simp only [insertSorted, if_pos h]
      exact List.Perm.refl _
    · simp only [insertSorted, if_neg h]
      exact (List.Perm.cons b ih).trans (List.Perm.swap a b l)

theorem sortByB_perm {α : Type} (le : α → α → Bool) :
    ∀ (l : List α), (sortByB le l).Perm l := by
  intro l
  induction l with
  | nil => exact List.Perm.refl _
  | cons a l ih =>
    exact (insertSorted_perm le a _).trans (List.Perm.cons a ih)

theorem mem_sortByB {α : Type} {le : α → α → Bool} {a : α} {l : List α} :
    a ∈ sortByB le l ↔ a ∈ l :=
  (sortByB_perm le l).mem_iff

theorem mem_insertSorted {α : Type} {le : α → α → Bool} {a x : α} {l : List α} :
    x ∈ insertSorted le a l ↔ x = a ∨ x ∈ l := by
  rw [(insertSorted_perm le a l).mem_iff]
  simp

theorem insertSorted_pairwise {α : Type} {le : α → α → Bool}
    (htot : ∀ a b : α, le a b = true ∨ le b a = true)
    (htrans : ∀ a b c : α, le a b = true → le b c = true → le a c = true)
    (a : α) :
    ∀ (l : List α), l.Pairwise (fun x y => le x y = true) →
      (insertSorted le a l).Pairwise (fun x y => le x y = true) := by
  intro l
  induction l with
  | nil => intro _; simp [insertSorted]
  | cons b l ih =>
    intro hl
    rw [List.pairwise_cons] at hl
    by_cases h : le a b = true
    · simp only [insertSorted, if_pos h]
      refine List.Pairwise.cons ?_ (List.Pairwise.cons hl.1 hl.2)
      intro y hy
      rcases List.mem_cons.mp hy with rfl | hy'
      · exact h
      · exact htrans a b y h (hl.1 y hy')
    · simp only [insertSorted, if_neg h]
      refine List.Pairwise.cons ?_ (ih hl.2)
      intro y hy
      rcases mem_insertSorted.mp hy with heq | hy'
      · rw [heq]
        rcases htot a b with h' | h'
        · exact absurd h' h
        · exact h'
      · exact hl.1 y hy'

theorem sortByB_pairwise {α : Type} {le : α → α → Bool}
    (htot : ∀ a b : α, le a b = true ∨ le b a = true)
    (htrans : ∀ a b c : α, le a b = true → le b c = true → le a c = true) :
    ∀ (l : List α), (sortByB le l).Pairwise (fun x y => le x y = true) := by
  intro l
  induction l with
  | nil => simp [sortByB]
  | cons a l ih => exact insertSorted_pairwise htot htrans a _ ih

/-! ## Segmentation utilities (src/neuclease/util/segmentation.py) -/

/-- Lexicographic order on label pairs (pandas groupby sorts its keys). -/
def pairLeB (p q : Nat × Nat) : Bool := p.1 < q.1 ∨ (p.1 = q.1 ∧ p.2 ≤ q.2)

/-- Embedding of `contingency_table(left_vol, right_vol)`: overlay the two
equal-shape volumes (flattened) and produce the grouped voxel counts per
(left-label, right-label) pair, keys ascending. -/
def contingency_table (left right : List Nat) : List ((Nat × Nat) × Nat) :=
  (sortByB pairLeB (dedupKeepFirst (left.zip right))).map
    (fun p => (p, (left.zip right).count p))

theorem contingency_table_mem {left right : List Nat} {p : Nat × Nat} {k : Nat} :
    (p, k) ∈ contingency_table left right ↔
      p ∈ left.zip right ∧ k = (left.zip right).count p := by
  unfold contingency_table
  rw [List.mem_map]
  constructor
  · rintro ⟨q, hq, hqe⟩
    have h1 : q = p := congrArg Prod.fst hqe
    have h2 : (left.zip right).count q = k := congrArg Prod.snd hqe
    rw [h1] at h2
    exact ⟨mem_dedupKeepFirst.mp (mem_sortByB.mp (h1 ▸ hq)), h2.symm⟩
  · rintro ⟨hmem, rfl⟩
    exact ⟨p, mem_sortByB.mpr (mem_dedupKeepFirst.mpr hmem), rfl⟩

theorem contingency_table_keys_nodup (left right : List Nat) :
    ((contingency_table left right).map (fun r => r.1)).Nodup := by
  unfold contingency_table
  rw [List.map_map]
  have : (fun r => r.1) ∘ (fun p => (p, (left.zip right).count p)) = id := rfl
  rw [this, List.map_id]
  exact ((sortByB_perm pairLeB _).nodup_iff).mpr (nodup_dedupKeepFirst _)

theorem contingency_table_count_pos {left right : List Nat} {r : (Nat × Nat) × Nat}
    (h : r ∈ contingency_table left right) : 0 < r.2 := by
  obtain ⟨hm, hc⟩ := contingency_table_mem.mp (show (r.1, r.2) ∈ _ from h)
  rw [hc]
  exact List.count_pos_iff.mpr hm

/-- Embedding of `compute_cc(img, min_component)` given the raw connected
components image. Modelled from the spec: the raw CC labeling itself
(vigra's labelMultiArrayWithBackground, via lossless consecutivization for
64-bit inputs) is external; it labels connected foreground regions, leaves
0 as background, and assigns each region a single nonzero id, so it enters
here as the argument `ccRaw`, constrained in the theorems by the properties
the spec gives it (cc id 0 exactly on background, one original label per cc
id). The mapping construction and the min_component offset follow the
source. -/
def compute_cc (img ccRaw : List Nat) (minComponent : Nat) : List Nat × List (Nat × Nat) :=
  let imgCC := if 1 < minComponent then
      ccRaw.map (fun c => if c ≠ 0 then c + (minComponent - 1) else c)
    else ccRaw
  let pairs := dedupKeepFirst (img.zip ccRaw)
  let pairs := if 1 < minComponent then
      pairs.map (fun p => if p.2 ≠ 0 then (p.1, p.2 + (minComponent - 1)) else p)
    else pairs
  (imgCC, pairs.map (fun p => (p.2, p.1)))

/-- Per-row final-CC assignment of `split_disconnected_bodies`
(segmentation.py lines 174-179): walking the by-size-descending table, the
first row of each original label keeps the label, every later (duplicated)
row takes the next fresh id. -/
def finalCCColumn : List ((Nat × Nat) × Nat) → Nat → List Nat →
    List (((Nat × Nat) × Nat) × Nat)
  | [], _, _ => []
  | r :: rest, next, seen =>
    if r.1.1 ∈ seen then (r, next) :: finalCCColumn rest (next + 1) (r.1.1 :: seen)
    else (r, r.1.1) :: finalCCColumn rest next (r.1.1 :: seen)

/-- Descending order on voxel counts (`sort_values('voxels',
ascending=False)`). -/
def rowLeB (r s : (Nat × Nat) × Nat) : Bool := s.2 ≤ r.2

/-- Embedding of `split_disconnected_bodies(labels_orig)` as a function of
the original volume and its connected-components volume (the CC labeling
itself, skimage's 6-connectivity label, is external; see the theorem's
hypotheses). Computes the orig/cc contingency table, sorts it by voxel
count descending, lets the largest component of each label keep the label
while later components take fresh ids above the volume's maximum label,
relabels the CC volume through that assignment, and emits the (new id →
original id) mapping rows for duplicated (split) labels only. -/
def split_disconnected_bodies (labelsOrig labelsCC : List Nat) :
    List Nat × List (Nat × Nat) :=
  let table := sortByB rowLeB (contingency_table labelsOrig labelsCC)
  let origMax := maxList (table.map (fun r => r.1.1))
  let rows := finalCCColumn table (origMax + 1) []
  let ccToFinal := rows.map (fun q => (q.1.1.2, q.2))
  let labelsNew := labelsCC.map (fun c => (ccToFinal.lookup c).getD 0)
  let mapping := (rows.filter
      (fun q => 1 < table.countP (fun r => r.1.1 = q.1.1.1))).map
    (fun q => (q.2, q.1.1.1))
  (labelsNew, mapping)

theorem lookup_of_mem_nodup_keys {l : List (Nat × Nat)} (hnd : (l.map Prod.fst).Nodup)
    {k v : Nat} (h : (k, v) ∈ l) : l.lookup k = some v := by
  induction l with
  | nil => cases h
  | cons p rest ih =>
    obtain ⟨k0, v0⟩ := p
    rw [List.map_cons] at hnd
    rw [List.lookup_cons]
    rcases List.mem_cons.mp h with heq | hmem
    · have h1 : k = k0 := congrArg Prod.fst heq
      have h2 : v = v0 := congrArg Prod.snd heq
      have hba : (k == k0) = true := by simp [h1]
      rw [hba]
      dsimp only
      rw [h2]
    · have hk0 : k ≠ k0 := by
        intro hc
        have : k0 ∈ rest.map Prod.fst := by
          rw [← hc]
          exact List.mem_map.mpr ⟨(k, v), hmem, rfl⟩
        exact (List.nodup_cons.mp hnd).1 this
      have hba : (k == k0) = false := by simp [hk0]
      rw [hba]
      dsimp only
      exact ih (List.nodup_cons.mp hnd).2 hmem

/-- Offset applied to nonzero CC ids by `min_component` (0 is unaffected). -/
def ccOffset (m c : Nat) : Nat := if c ≠ 0 then c + (m - 1) else c

theorem ccOffset_inj {m c1 c2 : Nat} (h : ccOffset m c1 = ccOffset m c2) : c1 = c2 := by
  unfold ccOffset at h
  by_cases h1 : c1 = 0 <;> by_cases h2 : c2 = 0 <;> simp [h1, h2] at h <;> omega

theorem ccOffset_eq_zero {m c : Nat} (h : ccOffset m c = 0) : c = 0 := by
  unfold ccOffset at h
  by_cases h1 : c = 0
  · exact h1
  · rw [if_pos h1] at h
    omega

/-- Normal form of `compute_cc`: the branchy offset application equals a
single pointwise offset of both the CC image and the mapping keys. -/
theorem compute_cc_eq (img ccRaw : List Nat) (m : Nat) :
    compute_cc img ccRaw m =
      (ccRaw.map (ccOffset m),
       (dedupKeepFirst (img.zip ccRaw)).map (fun p => (ccOffset m p.2, p.1))) := by
  unfold compute_cc ccOffset
  dsimp only
  by_cases hm : 1 < m
  · rw [if_pos hm, if_pos hm, List.map_map]
    refine congrArg _ ?_
    refine List.map_congr_left ?_
    intro p _
    by_cases h2 : p.2 = 0
    · simp [h2, Function.comp]
    · simp [h2, Function.comp]
  · rw [if_neg hm, if_neg hm]
    have hm1 : m - 1 = 0 := by omega
    rw [hm1]
    simp

/-- C10: for every input image and every min_component >= 1, the cc_mapping
returned by compute_cc is a function on CC ids: each CC id occurs exactly
once in the index, every nonzero pixel of the returned CC image appears in
the index, CC id 0 maps only to original label 0, and every pixel's CC id
looks up to that pixel's original label. -/
theorem compute_cc_mapping_function
    (img ccRaw : List Nat) (minComponent : Nat)
    (hlen : img.length = ccRaw.length)
    (hmc : 1 ≤ minComponent)
    (h0 : ∀ p ∈ img.zip ccRaw, p.2 = 0 ↔ p.1 = 0)
    (hdet : ∀ p ∈ img.zip ccRaw, ∀ q ∈ img.zip ccRaw, p.2 = q.2 → p.1 = q.1) :
    ((compute_cc img ccRaw minComponent).2.map Prod.fst).Nodup ∧
    (∀ i c : Nat, (compute_cc img ccRaw minComponent).1[i]? = some c → c ≠ 0 →
      c ∈ (compute_cc img ccRaw minComponent).2.map Prod.fst) ∧
    (∀ v : Nat, (0, v) ∈ (compute_cc img ccRaw minComponent).2 → v = 0) ∧
    (∀ i a c : Nat, img[i]? = some a →
      (compute_cc img ccRaw minComponent).1[i]? = some c →
      (compute_cc img ccRaw minComponent).2.lookup c = some a) := by
  rw [compute_cc_eq]
  have hpairs_nd : (dedupKeepFirst (img.zip ccRaw)).Nodup := nodup_dedupKeepFirst _
  have hkeys : ((dedupKeepFirst (img.zip ccRaw)).map
      (fun p => (ccOffset minComponent p.2, p.1))).map Prod.fst =
      (dedupKeepFirst (img.zip ccRaw)).map (fun p => ccOffset minComponent p.2) := by
    rw [List.map_map]
    rfl
  have hnd : (((dedupKeepFirst (img.zip ccRaw)).map
      (fun p => (ccOffset minComponent p.2, p.1))).map Prod.fst).Nodup := by
    rw [hkeys]
    refine List.Nodup.map_on ?_ hpairs_nd
    intro p hp q hq hpq
    have hcc : p.2 = q.2 := ccOffset_inj hpq
    have h1 : p.1 = q.1 :=
      hdet p (mem_dedupKeepFirst.mp hp) q (mem_dedupKeepFirst.mp hq) hcc
    exact Prod.ext h1 hcc
  refine ⟨hnd, ?_, ?_, ?_⟩
  · intro i c hc hc0
    rw [List.getElem?_map] at hc
    cases hraw : ccRaw[i]? with
    | none => rw [hraw] at hc; simp at hc
    | some craw =>
      rw [hraw] at hc
      simp only [Option.map_some', Option.some.injEq] at hc
      obtain ⟨hilt, _⟩ := List.getElem?_eq_some.mp hraw
      have hia : i < img.length := by omega
      have hpair : (img[i], craw) ∈ img.zip ccRaw := by
        refine mem_zip_iff_getElem?.mpr ⟨i, ?_, hraw⟩
        exact (List.getElem?_eq_some.mpr ⟨hia, rfl⟩)
      rw [hkeys]
      refine List.mem_map.mpr ⟨(img[i], craw), mem_dedupKeepFirst.mpr hpair, ?_⟩
      exact hc
  · intro v hv
    obtain ⟨p, hp, hpe⟩ := List.mem_map.mp hv
    have hz : ccOffset minComponent p.2 = 0 := congrArg Prod.fst hpe
    have hv1 : p.1 = v := congrArg Prod.snd hpe
    have h2 : p.2 = 0 := ccOffset_eq_zero hz
    have := (h0 p (mem_dedupKeepFirst.mp hp)).mp h2
    rw [← hv1]
    exact this
  · intro i a c ha hc
    rw [List.getElem?_map] at hc
    cases hraw : ccRaw[i]? with
    | none => rw [hraw] at hc; simp at hc
    | some craw =>
      rw [hraw] at hc
      simp only [Option.map_some', Option.some.injEq] at hc
      have hpair : (a, craw) ∈ img.zip ccRaw := mem_zip_iff_getElem?.mpr ⟨i, ha, hraw⟩
      refine lookup_of_mem_nodup_keys hnd ?_
      rw [← hc]
      exact List.mem_map.mpr ⟨(a, craw), mem_dedupKeepFirst.mpr hpair, rfl⟩

theorem compute_cc_mapping_function_witness :
    (((compute_cc [5,5,0,5,5,5] [1,1,0,2,2,2] 1).2.map Prod.fst).Nodup) ∧
    ((compute_cc [5,5,0,5,5,5] [1,1,0,2,2,2] 1).2.lookup 2 = some 5) :=
  ⟨(compute_cc_mapping_function [5,5,0,5,5,5] [1,1,0,2,2,2] 1
      (by decide) (by decide) (by decide) (by decide)).1,
   (compute_cc_mapping_function [5,5,0,5,5,5] [1,1,0,2,2,2] 1
      (by decide) (by decide) (by decide) (by decide)).2.2.2 5 5 2
      (by decide) (by decide)⟩

/-! ## Hot-knife stitching pipeline (src/neuclease/focused/hotknife.py) -/

/-- One edge row of `match_overlaps` (sample coordinates omitted; they are
appended by `region_coordinates` and never add or remove rows). -/
structure OvRow where
  left_cc : Nat
  right_cc : Nat
  overlap : Nat
  left : Nat
  right : Nat
deriving DecidableEq

/-- The `crossover_filter` argument of `match_overlaps`. -/
inductive CrossoverFilter
  | noFilter
  | excludeIdentities
  | excludeAll
deriving DecidableEq

/-- CC-space contingency rows ((left_cc, right_cc), overlap). -/
def ovTable (ccL ccR : List Nat) : List ((Nat × Nat) × Nat) :=
  contingency_table ccL ccR

/-- Drop edges involving CC id 0 (hotknife.py line 422). -/
def dropZeroRows (rows : List ((Nat × Nat) × Nat)) : List ((Nat × Nat) × Nat) :=
  rows.filter (fun r => r.1.1 ≠ 0 ∧ r.1.2 ≠ 0)

/-- The `min_overlap` filter (hotknife.py lines 424-426): applied only when
min_overlap > 1, and then with a strict comparison. -/
def applyMinOverlap (minOverlap : Nat) (rows : List ((Nat × Nat) × Nat)) :
    List ((Nat × Nat) × Nat) :=
  if 1 < minOverlap then rows.filter (fun r => minOverlap < r.2) else rows

/-- Append the original labels via the CC-to-original mappings
(hotknife.py lines 431-432). -/
def addOrigLabels (mapL mapR : List (Nat × Nat)) (rows : List ((Nat × Nat) × Nat)) :
    List OvRow :=
  rows.map (fun r =>
    ⟨r.1.1, r.1.2, r.2, (mapL.lookup r.1.1).getD 0, (mapR.lookup r.1.2).getD 0⟩)

/-- Crossover handling (hotknife.py lines 434-448). -/
def applyCrossoverFilter : CrossoverFilter → List OvRow → List OvRow
  | CrossoverFilter.noFilter, rows => rows
  | CrossoverFilter.excludeIdentities, rows => rows.filter (fun r => r.left ≠ r.right)
  | CrossoverFilter.excludeAll, rows =>
    let crossoverRows := rows.filter (fun r => r.left = r.right)
    let crossoverComponents := crossoverRows.map (fun r => r.left_cc) ++
      crossoverRows.map (fun r => r.right_cc)
    rows.filter (fun r =>
      ¬ r.left_cc ∈ crossoverComponents ∧ ¬ r.right_cc ∈ crossoverComponents)

/-- Embedding of the row-producing core of `match_overlaps` as a function
of the two CC images (from `compute_cc`) and their CC-to-original label
mappings; `match_filter=None` so the external favorites stage is skipped,
and the coordinate columns are omitted. -/
def match_overlaps_core (ccL ccR : List Nat) (mapL mapR : List (Nat × Nat))
    (minOverlap : Nat) (cf : CrossoverFilter) : List OvRow :=
  applyCrossoverFilter cf
    (addOrigLabels mapL mapR (applyMinOverlap minOverlap (dropZeroRows (ovTable ccL ccR))))

theorem applyCrossoverFilter_subset {cf : CrossoverFilter} {rows : List OvRow} {r : OvRow}
    (h : r ∈ applyCrossoverFilter cf rows) : r ∈ rows := by
  cases cf with
  | noFilter => exact h
  | excludeIdentities => exact List.mem_of_mem_filter h
  | excludeAll => exact List.mem_of_mem_filter h

/-- C6: when min_overlap > 1 every returned row of match_overlaps has
overlap strictly greater than min_overlap, and when min_overlap = 1 no row
is removed on account of its overlap size: the result is exactly the
zero-filtered contingency table with original labels attached. -/
theorem match_overlaps_min_overlap
    (ccL ccR : List Nat) (mapL mapR : List (Nat × Nat)) (minOverlap : Nat)
    (cf : CrossoverFilter) :
    (1 < minOverlap → ∀ r ∈ match_overlaps_core ccL ccR mapL mapR minOverlap cf,
      minOverlap < r.overlap) ∧
    (match_overlaps_core ccL ccR mapL mapR 1 CrossoverFilter.noFilter =
      addOrigLabels mapL mapR (dropZeroRows (ovTable ccL ccR))) := by
  constructor
  · intro hm r hr
    have hr1 : r ∈ addOrigLabels mapL mapR
        (applyMinOverlap minOverlap (dropZeroRows (ovTable ccL ccR))) :=
      applyCrossoverFilter_subset hr
    obtain ⟨r0, hr0, hre⟩ := List.mem_map.mp hr1
    unfold applyMinOverlap at hr0
    rw [if_pos hm] at hr0
    have hlt : minOverlap < r0.2 := by
      have := (List.mem_filter.mp hr0).2
      simpa using this
    have hov : r.overlap = r0.2 := by rw [← hre]
    rw [hov]
    exact hlt
  · unfold match_overlaps_core applyMinOverlap
    rw [if_neg (by omega)]
    rfl

theorem match_overlaps_min_overlap_witness :
    (2 < (OvRow.mk 1 2 3 4 6).overlap) ∧
    (match_overlaps_core [0,1,1] [0,2,2] [(1,4)] [(2,6)] 1 CrossoverFilter.noFilter =
      addOrigLabels [(1,4)] [(2,6)] (dropZeroRows (ovTable [0,1,1] [0,2,2]))) :=
  ⟨(match_overlaps_min_overlap [0,1,1,1] [0,2,2,2] [(1,4)] [(2,6)] 2
      CrossoverFilter.noFilter).1 (by decide) (OvRow.mk 1 2 3 4 6) (by decide),
   (match_overlaps_min_overlap [0,1,1] [0,2,2] [(1,4)] [(2,6)] 1
      CrossoverFilter.noFilter).2⟩

/-- C7: with crossover_filter='exclude-identities' the result contains no
identity row but retains every non-identity row (so a crossover object can
still pair with a different label), and with 'exclude-all' the result
contains no row whose left_cc or right_cc participates in any identity
pair; on the concrete example with label 4 self-overlapping and also
overlapping label 6, 'exclude-identities' keeps the (4,6) edge and drops
(4,4), while 'exclude-all' drops both. -/
theorem match_overlaps_crossover_filters :
    (∀ (ccL ccR : List Nat) (mapL mapR : List (Nat × Nat)) (m : Nat),
      (∀ r ∈ match_overlaps_core ccL ccR mapL mapR m CrossoverFilter.excludeIdentities,
        r.left ≠ r.right) ∧
      (∀ r ∈ addOrigLabels mapL mapR (applyMinOverlap m (dropZeroRows (ovTable ccL ccR))),
        r.left ≠ r.right →
        r ∈ match_overlaps_core ccL ccR mapL mapR m CrossoverFilter.excludeIdentities) ∧
      (∀ r ∈ match_overlaps_core ccL ccR mapL mapR m CrossoverFilter.excludeAll,
        ∀ r' ∈ addOrigLabels mapL mapR (applyMinOverlap m (dropZeroRows (ovTable ccL ccR))),
          r'.left = r'.right →
          r.left_cc ≠ r'.left_cc ∧ r.left_cc ≠ r'.right_cc ∧
          r.right_cc ≠ r'.left_cc ∧ r.right_cc ≠ r'.right_cc)) ∧
    match_overlaps_core (compute_cc [4,4] [1,1] 1).1 (compute_cc [4,6] [1,2] 2).1
      (compute_cc [4,4] [1,1] 1).2 (compute_cc [4,6] [1,2] 2).2 1
      CrossoverFilter.excludeIdentities = [OvRow.mk 1 3 1 4 6] ∧
    match_overlaps_core (compute_cc [4,4] [1,1] 1).1 (compute_cc [4,6] [1,2] 2).1
      (compute_cc [4,4] [1,1] 1).2 (compute_cc [4,6] [1,2] 2).2 1
      CrossoverFilter.excludeAll = [] := by
  refine ⟨fun ccL ccR mapL mapR m => ⟨?_, ?_, ?_⟩, by decide, by decide⟩
  · intro r hr
    have := (List.mem_filter.mp hr).2
    simpa using this
  · intro r hr hne
    exact List.mem_filter.mpr ⟨hr, by simpa using hne⟩
  · intro r hr r' hr' hid
    have hmem := (List.mem_filter.mp hr).2
    simp only [decide_eq_true_eq] at hmem
    have hcross : r' ∈ (addOrigLabels mapL mapR
        (applyMinOverlap m (dropZeroRows (ovTable ccL ccR)))).filter
        (fun q => q.left = q.right) :=
      List.mem_filter.mpr ⟨hr', by simpa using hid⟩
    have hL : r'.left_cc ∈ ((addOrigLabels mapL mapR
        (applyMinOverlap m (dropZeroRows (ovTable ccL ccR)))).filter
        (fun q => q.left = q.right)).map (fun q => q.left_cc) ++
        ((addOrigLabels mapL mapR
        (applyMinOverlap m (dropZeroRows (ovTable ccL ccR)))).filter
        (fun q => q.left = q.right)).map (fun q => q.right_cc) :=
      List.mem_append.mpr (Or.inl (List.mem_map.mpr ⟨r', hcross, rfl⟩))
    have hR : r'.right_cc ∈ ((addOrigLabels mapL mapR
        (applyMinOverlap m (dropZeroRows (ovTable ccL ccR)))).filter
        (fun q => q.left = q.right)).map (fun q => q.left_cc) ++
        ((addOrigLabels mapL mapR
        (applyMinOverlap m (dropZeroRows (ovTable ccL ccR)))).filter
        (fun q => q.left = q.right)).map (fun q => q.right_cc) :=
      List.mem_append.mpr (Or.inr (List.mem_map.mpr ⟨r', hcross, rfl⟩))
    refine ⟨?_, ?_, ?_, ?_⟩
    · intro hc; exact hmem.1 (hc ▸ hL)
    · intro hc; exact hmem.1 (hc ▸ hR)
    · intro hc; exact hmem.2 (hc ▸ hL)
    · intro hc; exact hmem.2 (hc ▸ hR)

theorem match_overlaps_crossover_filters_witness :
    ((OvRow.mk 1 3 1 4 6).left ≠ (OvRow.mk 1 3 1 4 6).right) ∧
    match_overlaps_core (compute_cc [4,4] [1,1] 1).1 (compute_cc [4,6] [1,2] 2).1
      (compute_cc [4,4] [1,1] 1).2 (compute_cc [4,6] [1,2] 2).2 1
      CrossoverFilter.excludeAll = [] :=
  ⟨(match_overlaps_crossover_filters.1 [1,1] [2,3] [(1,4)] [(2,4),(3,6)] 1).1
      (OvRow.mk 1 3 1 4 6) (by decide),
   match_overlaps_crossover_filters.2.2⟩

/-! ## Properties of the final-CC assignment (for split_disconnected_bodies) -/

theorem maxList_mem {l : List Nat} (h : l ≠ []) : maxList l ∈ l := by
  induction l with
  | nil => exact absurd rfl h
  | cons b l ih =>
    cases l with
    | nil => simp [maxList]
    | cons c l2 =>
      rcases max_choice b (maxList (c :: l2)) with hm | hm
    <;> unfold maxList at *
      · rw [List.foldr_cons, hm]
        exact List.mem_cons_self _ _
      · rw [List.foldr_cons, hm]
        exact List.mem_cons_of_mem _ (ih (by simp))

theorem bool_eq_false_of_ne_true {b : Bool} (h : ¬ b = true) : b = false := by
  cases b
  · rfl
  · exact absurd rfl h

theorem finalCCColumn_rows :
    ∀ (rows : List ((Nat × Nat) × Nat)) (next : Nat) (seen : List Nat),
      (finalCCColumn rows next seen).map (fun q => q.1) = rows := by
  intro rows
  induction rows with
  | nil => intro next seen; rfl
  | cons r rest ih =>
    intro next seen
    unfold finalCCColumn
    by_cases h : r.1.1 ∈ seen
    · rw [if_pos h, List.map_cons, ih]
    · rw [if_neg h, List.map_cons, ih]

theorem finalCCColumn_final_cases :
    ∀ (rows : List ((Nat × Nat) × Nat)) (next : Nat) (seen : List Nat),
      ∀ q ∈ finalCCColumn rows next seen, q.2 = q.1.1.1 ∨ next ≤ q.2 := by
  intro rows
  induction rows with
  | nil => intro next seen q h; cases h
  | cons r rest ih =>
    intro next seen q h
    unfold finalCCColumn at h
    by_cases hs : r.1.1 ∈ seen
    · rw [if_pos hs] at h
      rcases List.mem_cons.mp h with rfl | htail
      · right; rfl
      · rcases ih (next + 1) _ q htail with h1 | h1
        · left; exact h1
        · right; omega
    · rw [if_neg hs] at h
      rcases List.mem_cons.mp h with rfl | htail
      · left; rfl
      · exact ih next _ q htail

theorem finalCCColumn_mem_row {rows : List ((Nat × Nat) × Nat)} {next : Nat}
    {seen : List Nat} {q : ((Nat × Nat) × Nat) × Nat}
    (h : q ∈ finalCCColumn rows next seen) : q.1 ∈ rows := by
  rw [← finalCCColumn_rows rows next seen]
  exact List.mem_map.mpr ⟨q, h, rfl⟩

theorem finalCCColumn_fresh_dup (M : Nat) :
    ∀ (rows : List ((Nat × Nat) × Nat)) (next : Nat) (seen : List Nat),
      (∀ r ∈ rows, r.1.1 ≤ M) → M < next →
      ∀ q ∈ finalCCColumn rows next seen, M < q.2 →
        q.1.1.1 ∈ seen ∨ 1 < rows.countP (fun r => r.1.1 = q.1.1.1) := by
  intro rows
  induction rows with
  | nil => intro next seen _ _ q h; cases h
  | cons r rest ih =>
    intro next seen hle hnext q h hq
    unfold finalCCColumn at h
    by_cases hs : r.1.1 ∈ seen
    · rw [if_pos hs] at h
      rcases List.mem_cons.mp h with rfl | htail
      · left; exact hs
      · rcases ih (next + 1) _ (fun r' hr' => hle r' (List.mem_cons_of_mem _ hr'))
          (by omega) q htail hq with hseen | hcnt
        · rcases List.mem_cons.mp hseen with heq | hseen'
          · right
            have hq1 : q.1 ∈ rest := finalCCColumn_mem_row htail
            have hpos : 0 < rest.countP (fun r' => decide (r'.1.1 = q.1.1.1)) :=
              List.countP_pos_iff.mpr ⟨q.1, hq1, by simp⟩
            have hstep : (r :: rest).countP (fun r' => decide (r'.1.1 = q.1.1.1)) =
                rest.countP (fun r' => decide (r'.1.1 = q.1.1.1)) + 1 := by
              rw [List.countP_cons]
              simp [heq]
            rw [hstep]
            omega
          · left; exact hseen'
        · right
          rw [List.countP_cons]
          omega
    · rw [if_neg hs] at h
      rcases List.mem_cons.mp h with rfl | htail
      · exfalso
        have hler := hle r (List.mem_cons_self _ _)
        simp at hq
        omega
      · rcases ih next _ (fun r' hr' => hle r' (List.mem_cons_of_mem _ hr'))
          hnext q htail hq with hseen | hcnt
        · rcases List.mem_cons.mp hseen with heq | hseen'
          · right
            have hq1 : q.1 ∈ rest := finalCCColumn_mem_row htail
            have hpos : 0 < rest.countP (fun r' => decide (r'.1.1 = q.1.1.1)) :=
              List.countP_pos_iff.mpr ⟨q.1, hq1, by simp⟩
            have hstep : (r :: rest).countP (fun r' => decide (r'.1.1 = q.1.1.1)) =
                rest.countP (fun r' => decide (r'.1.1 = q.1.1.1)) + 1 := by
              rw [List.countP_cons]
              simp [heq]
            rw [hstep]
            omega
          · left; exact hseen'
        · right
          rw [List.countP_cons]
          omega

theorem finalCCColumn_keep_first :
    ∀ (rows : List ((Nat × Nat) × Nat)) (next : Nat) (seen : List Nat) (L : Nat)
      (r : (Nat × Nat) × Nat), L ∉ seen →
      rows.find? (fun s => s.1.1 = L) = some r →
      (r, L) ∈ finalCCColumn rows next seen := by
  intro rows
  induction rows with
  | nil => intro next seen L r _ hf; simp at hf
  | cons r0 rest ih =>
    intro next seen L r hLs hf
    rw [List.find?_cons] at hf
    by_cases hp : r0.1.1 = L
    · have hba : decide (r0.1.1 = L) = true := by simp [hp]
      rw [hba] at hf
      dsimp only at hf
      have hr : r0 = r := by simpa using hf
      unfold finalCCColumn
      rw [if_neg (by rw [hp]; exact hLs)]
      rw [← hr, ← hp]
      exact List.mem_cons_self _ _
    · have hba : decide (r0.1.1 = L) = false := by simp [hp]
      rw [hba] at hf
      dsimp only at hf
      have hLs' : L ∉ r0.1.1 :: seen := by
        intro hc
        rcases List.mem_cons.mp hc with heq | hmem
        · exact hp heq.symm
        · exact hLs hmem
      unfold finalCCColumn
      by_cases hs : r0.1.1 ∈ seen
      · rw [if_pos hs]
        exact List.mem_cons_of_mem _ (ih (next + 1) _ L r hLs' hf)
      · rw [if_neg hs]
        exact List.mem_cons_of_mem _ (ih next _ L r hLs' hf)

theorem find?_eq_some_of_unique {α : Type} {l : List α} {p : α → Bool} {r : α}
    (hr : r ∈ l) (hp : p r = true) (huniq : ∀ s ∈ l, p s = true → s = r) :
    l.find? p = some r := by
  induction l with
  | nil => cases hr
  | cons a rest ih =>
    rw [List.find?_cons]
    by_cases hpa : p a = true
    · rw [hpa]
      dsimp only
      rw [huniq a (List.mem_cons_self _ _) hpa]
    · rw [bool_eq_false_of_ne_true hpa]
      dsimp only
      rcases List.mem_cons.mp hr with rfl | hmem
      · exact absurd hp hpa
      · exact ih hmem (fun s hs => huniq s (List.mem_cons_of_mem _ hs))

theorem find?_first_pairwise {α : Type} {R : α → α → Prop} :
    ∀ {l : List α}, l.Pairwise R → ∀ {p : α → Bool} {r : α}, l.find? p = some r →
      ∀ s ∈ l, p s = true → s = r ∨ R r s := by
  intro l
  induction l with
  | nil => intro _ p r hf; simp at hf
  | cons a rest ih =>
    intro hpw p r hf s hs hps
    rw [List.pairwise_cons] at hpw
    rw [List.find?_cons] at hf
    by_cases hpa : p a = true
    · rw [hpa] at hf
      dsimp only at hf
      have hra : a = r := by simpa using hf
      rcases List.mem_cons.mp hs with rfl | hmem
      · left; exact hra
      · right; rw [← hra]; exact hpw.1 s hmem
    · rw [bool_eq_false_of_ne_true hpa] at hf
      dsimp only at hf
      rcases List.mem_cons.mp hs with rfl | hmem
      · exact absurd hps hpa
      · exact ih hpw.2 hf s hmem hps

theorem fresh_range (M : Nat) :
    ∀ (rows : List ((Nat × Nat) × Nat)) (next : Nat) (seen : List Nat),
      (∀ r ∈ rows, r.1.1 ≤ M) → M < next →
      ∃ K : Nat, ((finalCCColumn rows next seen).map (fun q => q.2)).filter
        (fun a => M < a) = List.range' next K := by
  intro rows
  induction rows with
  | nil => intro next seen _ _; exact ⟨0, rfl⟩
  | cons r rest ih =>
    intro next seen hle hnext
    unfold finalCCColumn
    by_cases hs : r.1.1 ∈ seen
    · rw [if_pos hs]
      obtain ⟨K, hK⟩ := ih (next + 1) _ (fun r' hr' => hle r' (List.mem_cons_of_mem _ hr'))
        (by omega)
      refine ⟨K + 1, ?_⟩
      rw [List.map_cons, List.filter_cons]
      rw [if_pos (by simpa using hnext)]
      rw [hK]
      rfl
    · rw [if_neg hs]
      obtain ⟨K, hK⟩ := ih next _ (fun r' hr' => hle r' (List.mem_cons_of_mem _ hr'))
        hnext
      refine ⟨K, ?_⟩
      rw [List.map_cons, List.filter_cons]
      rw [if_neg (by
        have := hle r (List.mem_cons_self _ _)
        simpa using by omega)]
      exact hK

theorem filter_map_filter_absorb {α : Type} (D : α → Bool) (g : α → Nat) (P : Nat → Bool) :
    ∀ (l : List α), (∀ q ∈ l, P (g q) = true → D q = true) →
      ((l.filter D).map g).filter P = (l.map g).filter P := by
  intro l
  induction l with
  | nil => intro _; rfl
  | cons a rest ih =>
    intro h
    rw [List.map_cons, List.filter_cons]
    by_cases hD : D a = true
    · rw [List.filter_cons, if_pos hD, List.map_cons, List.filter_cons]
      rw [ih (fun q hq => h q (List.mem_cons_of_mem _ hq))]
    · rw [List.filter_cons, if_neg hD]
      have hP : P (g a) = false := by
        cases hPa : P (g a) with
        | true => exact absurd (h a (List.mem_cons_self _ _) hPa) hD
        | false => rfl
      rw [if_neg (by simp [hP])]
      exact ih (fun q hq => h q (List.mem_cons_of_mem _ hq))

theorem one_lt_countP_of_two_mem {α : Type} [DecidableEq α] {l : List α} {p : α → Bool}
    {x y : α} (hx : x ∈ l) (hy : y ∈ l) (hxy : x ≠ y)
    (hpx : p x = true) (hpy : p y = true) : 1 < l.countP p := by
  rw [List.countP_eq_length_filter]
  exact one_lt_length_of_two_mem (List.mem_filter.mpr ⟨hx, hpx⟩)
    (List.mem_filter.mpr ⟨hy, hpy⟩) hxy

theorem two_mem_of_one_lt_countP {α : Type} {l : List α} {p : α → Bool}
    (hnd : l.Nodup) (h : 1 < l.countP p) :
    ∃ x ∈ l, ∃ y ∈ l, x ≠ y ∧ p x = true ∧ p y = true := by
  rw [List.countP_eq_length_filter] at h
  have hfnd : (l.filter p).Nodup := hnd.filter p
  cases hfl : l.filter p with
  | nil => rw [hfl] at h; simp at h
  | cons x rest =>
    cases rest with
    | nil => rw [hfl] at h; simp at h
    | cons y rest2 =>
      have hx : x ∈ l.filter p := by rw [hfl]; exact List.mem_cons_self _ _
      have hy : y ∈ l.filter p := by
        rw [hfl]
        exact List.mem_cons_of_mem _ (List.mem_cons_self _ _)
      have hxy : x ≠ y := by
        rw [hfl] at hfnd
        intro hc
        rw [List.nodup_cons] at hfnd
        exact hfnd.1 (hc ▸ List.mem_cons_self _ _)
      exact ⟨x, List.mem_of_mem_filter hx, y, List.mem_of_mem_filter hy, hxy,
        (List.mem_filter.mp hx).2, (List.mem_filter.mp hy).2⟩

/-- An original label is split when its voxels fall in at least two
distinct connected components. -/
abbrev SplitLabel (labelsOrig labelsCC : List Nat) (L : Nat) : Prop :=
  ∃ p ∈ labelsOrig.zip labelsCC, ∃ q ∈ labelsOrig.zip labelsCC,
    p.1 = L ∧ q.1 = L ∧ p.2 ≠ q.2

/-- Voxel count of the component `c` of label `L`. -/
def clsSize (labelsOrig labelsCC : List Nat) (L c : Nat) : Nat :=
  (labelsOrig.zip labelsCC).count (L, c)

theorem split_disconnected_bodies_out (labelsOrig labelsCC : List Nat) :
    (split_disconnected_bodies labelsOrig labelsCC).1 = labelsCC.map (fun c =>
      (((finalCCColumn (sortByB rowLeB (contingency_table labelsOrig labelsCC))
        (maxList ((sortByB rowLeB (contingency_table labelsOrig labelsCC)).map
          (fun r => r.1.1)) + 1) []).map (fun q => (q.1.1.2, q.2))).lookup c).getD 0) := rfl

theorem split_disconnected_bodies_mapping (labelsOrig labelsCC : List Nat) :
    (split_disconnected_bodies labelsOrig labelsCC).2 =
      ((finalCCColumn (sortByB rowLeB (contingency_table labelsOrig labelsCC))
        (maxList ((sortByB rowLeB (contingency_table labelsOrig labelsCC)).map
          (fun r => r.1.1)) + 1) []).filter
        (fun q => 1 < (sortByB rowLeB (contingency_table labelsOrig labelsCC)).countP
          (fun r => r.1.1 = q.1.1.1))).map (fun q => (q.2, q.1.1.1)) := rfl

theorem rowLeB_total (a b : (Nat × Nat) × Nat) : rowLeB a b = true ∨ rowLeB b a = true := by
  unfold rowLeB
  by_cases h : b.2 ≤ a.2
  · left; simpa using h
  · right; simp; omega

theorem rowLeB_trans (a b c : (Nat × Nat) × Nat) (h1 : rowLeB a b = true)
    (h2 : rowLeB b c = true) : rowLeB a c = true := by
  unfold rowLeB at *
  simp at h1 h2 ⊢
  omega

/-- C5: split_disconnected_bodies relabels each original label that
decomposes into multiple face-adjacency components so that the strictly
largest component keeps the original label, every other component receives
a fresh id above the volume's maximum original label with fresh ids
assigned contiguously, background 0 (and any unsplit label) is untouched,
and the returned mapping contains exactly the rows of split labels
(including the retained identity pair) with every fresh output id mapping
back to its original label. The 6-connectivity CC volume itself is
external (skimage.measure.label); it enters as `labelsCC`, constrained by
the spec's contract: background exactly where the original is background,
and a single original label per component.  -/
theorem split_disconnected_bodies_spec
    (labelsOrig labelsCC : List Nat)
    (hlen : labelsOrig.length = labelsCC.length)
    (h0 : ∀ p ∈ labelsOrig.zip labelsCC, p.1 = 0 ↔ p.2 = 0)
    (hdet : ∀ p ∈ labelsOrig.zip labelsCC, ∀ q ∈ labelsOrig.zip labelsCC,
      p.2 = q.2 → p.1 = q.1) :
    (∀ i : Nat, labelsOrig[i]? = some 0 →
      (split_disconnected_bodies labelsOrig labelsCC).1[i]? = some 0) ∧
    (∀ i a : Nat, labelsOrig[i]? = some a → ¬ SplitLabel labelsOrig labelsCC a →
      (split_disconnected_bodies labelsOrig labelsCC).1[i]? = some a) ∧
    (∀ i a b : Nat, labelsOrig[i]? = some a →
      (split_disconnected_bodies labelsOrig labelsCC).1[i]? = some b →
      b = a ∨ maxList labelsOrig < b) ∧
    (∀ L c : Nat, (L, c) ∈ labelsOrig.zip labelsCC →
      (∀ c' : Nat, (L, c') ∈ labelsOrig.zip labelsCC → c' ≠ c →
        clsSize labelsOrig labelsCC L c' < clsSize labelsOrig labelsCC L c) →
      ∀ i : Nat, labelsCC[i]? = some c →
        (split_disconnected_bodies labelsOrig labelsCC).1[i]? = some L) ∧
    (∃ K : Nat, (((split_disconnected_bodies labelsOrig labelsCC).2.map
        (fun pr => pr.1)).filter (fun a => maxList labelsOrig < a))
      = List.range' (maxList labelsOrig + 1) K) ∧
    (∀ pr ∈ (split_disconnected_bodies labelsOrig labelsCC).2,
      SplitLabel labelsOrig labelsCC pr.2 ∧ (pr.1 = pr.2 ∨ maxList labelsOrig < pr.1)) ∧
    (∀ L : Nat, SplitLabel labelsOrig labelsCC L →
      (L, L) ∈ (split_disconnected_bodies labelsOrig labelsCC).2) ∧
    (∀ i a b : Nat, labelsOrig[i]? = some a →
      (split_disconnected_bodies labelsOrig labelsCC).1[i]? = some b → b ≠ a →
      (b, a) ∈ (split_disconnected_bodies labelsOrig labelsCC).2) := by
  rw [split_disconnected_bodies_out, split_disconnected_bodies_mapping]
  set Z := labelsOrig.zip labelsCC with hZdef
  set T := sortByB rowLeB (contingency_table labelsOrig labelsCC) with hTdef
  set O := maxList (T.map (fun r => r.1.1)) with hOdef
  set rowsOut := finalCCColumn T (O + 1) [] with hRowsdef
  -- membership characterization of the sorted table
  have hTmem : ∀ (p : Nat × Nat) (k : Nat), ((p, k) ∈ T) ↔ (p ∈ Z ∧ k = Z.count p) := by
    intro p k
    rw [hTdef]
    exact (sortByB_perm rowLeB _).mem_iff.trans contingency_table_mem
  have hTrow : ∀ r ∈ T, r.1 ∈ Z ∧ r.2 = Z.count r.1 := by
    intro r hr
    exact (hTmem r.1 r.2).mp hr
  have hTnodup : T.Nodup := by
    rw [hTdef]
    refine ((sortByB_perm rowLeB _).nodup_iff).mpr ?_
    unfold contingency_table
    refine List.Nodup.map_on ?_ (((sortByB_perm pairLeB _).nodup_iff).mpr
      (nodup_dedupKeepFirst _))
    intro x _ y _ hxy
    exact congrArg Prod.fst hxy
  have hTccInj : ∀ r ∈ T, ∀ r' ∈ T, r.1.2 = r'.1.2 → r = r' := by
    intro r hr r' hr' hcc
    obtain ⟨hz, hk⟩ := hTrow r hr
    obtain ⟨hz', hk'⟩ := hTrow r' hr'
    have horig : r.1.1 = r'.1.1 := hdet r.1 hz r'.1 hz' hcc
    have hpair : r.1 = r'.1 := Prod.ext horig hcc
    have hcount : r.2 = r'.2 := by rw [hk, hk', hpair]
    exact Prod.ext hpair hcount
  have hRowsFst : rowsOut.map (fun q => q.1) = T := by
    rw [hRowsdef]
    exact finalCCColumn_rows T (O + 1) []
  have hccKeys : rowsOut.map (fun q => q.1.1.2) = T.map (fun r => r.1.2) := by
    rw [← hRowsFst, List.map_map]
    rfl
  have hccKeysNodup : ((rowsOut.map (fun q => (q.1.1.2, q.2))).map Prod.fst).Nodup := by
    rw [List.map_map]
    have heq : (Prod.fst ∘ fun q => (q.1.1.2, q.2)) =
        (fun q : ((Nat × Nat) × Nat) × Nat => q.1.1.2) := rfl
    rw [heq, hccKeys]
    refine List.Nodup.map_on ?_ hTnodup
    intro x hx y hy hxy
    exact hTccInj x hx y hy hxy
  have hTleO : ∀ r ∈ T, r.1.1 ≤ O := by
    intro r hr
    rw [hOdef]
    exact le_maxList (List.mem_map.mpr ⟨r, hr, rfl⟩)
  have hOM : O = maxList labelsOrig := by
    refine le_antisymm ?_ ?_
    · rw [hOdef]
      refine maxList_le ?_
      intro a ha
      obtain ⟨r, hr, hre⟩ := List.mem_map.mp ha
      have hz := (hTrow r hr).1
      have : r.1.1 ∈ labelsOrig := (List.of_mem_zip hz).1
      rw [← hre]
      exact le_maxList this
    · by_cases hnil : labelsOrig = []
      · rw [hnil]
        exact Nat.zero_le _
      · have hmax : maxList labelsOrig ∈ labelsOrig := maxList_mem hnil
        obtain ⟨i, hi⟩ := List.mem_iff_getElem?.mp hmax
        have hilt : i < labelsOrig.length := (List.getElem?_eq_some.mp hi).1
        have hic : i < labelsCC.length := by omega
        cases hci : labelsCC[i]? with
        | none =>
          have := List.getElem?_eq_none_iff.mp hci
          omega
        | some c =>
          have hz : (maxList labelsOrig, c) ∈ Z := mem_zip_iff_getElem?.mpr ⟨i, hi, hci⟩
          have hrt : ((maxList labelsOrig, c), Z.count (maxList labelsOrig, c)) ∈ T :=
            (hTmem _ _).mpr ⟨hz, rfl⟩
          rw [hOdef]
          exact le_maxList (List.mem_map.mpr ⟨_, hrt, rfl⟩)
  have hEntryUnique : ∀ q ∈ rowsOut, ∀ q' ∈ rowsOut, q.1 = q'.1 → q = q' := by
    have hnd : (rowsOut.map (fun q => q.1)).Nodup := by rw [hRowsFst]; exact hTnodup
    intro q hq q' hq' he
    exact List.inj_on_of_nodup_map hnd hq hq' he
  -- pixel-level characterization of the output volume
  have houtPixel : ∀ i a c : Nat, labelsOrig[i]? = some a → labelsCC[i]? = some c →
      ∃ q ∈ rowsOut, q.1 = ((a, c), Z.count (a, c)) ∧
        (labelsCC.map (fun c0 =>
          (((rowsOut.map (fun q => (q.1.1.2, q.2))).lookup c0).getD 0)))[i]? = some q.2 := by
    intro i a c ha hc
    have hz : (a, c) ∈ Z := mem_zip_iff_getElem?.mpr ⟨i, ha, hc⟩
    have hrt : ((a, c), Z.count (a, c)) ∈ T := (hTmem _ _).mpr ⟨hz, rfl⟩
    have hrt' : ((a, c), Z.count (a, c)) ∈ rowsOut.map (fun q => q.1) := by
      rw [hRowsFst]; exact hrt
    obtain ⟨q, hq, hqe⟩ := List.mem_map.mp hrt'
    refine ⟨q, hq, hqe, ?_⟩
    rw [List.getElem?_map, hc]
    simp only [Option.map_some', Option.some.injEq]
    have hkey : (c, q.2) ∈ rowsOut.map (fun q => (q.1.1.2, q.2)) := by
      refine List.mem_map.mpr ⟨q, hq, ?_⟩
      rw [hqe]
    rw [lookup_of_mem_nodup_keys hccKeysNodup hkey]
    rfl
  have hgetCC : ∀ i a : Nat, labelsOrig[i]? = some a → ∃ c : Nat, labelsCC[i]? = some c := by
    intro i a ha
    have hilt : i < labelsOrig.length := (List.getElem?_eq_some.mp ha).1
    cases hci : labelsCC[i]? with
    | none =>
      have := List.getElem?_eq_none_iff.mp hci
      omega
    | some c => exact ⟨c, rfl⟩
  -- sortedness of the table by descending voxel count
  have hTsorted : T.Pairwise (fun r s => rowLeB r s = true) := by
    rw [hTdef]
    exact sortByB_pairwise rowLeB_total rowLeB_trans _
  -- unsplit labels keep their id
  have hKeepUnsplit : ∀ i a : Nat, labelsOrig[i]? = some a →
      ¬ SplitLabel labelsOrig labelsCC a →
      (labelsCC.map (fun c0 =>
        (((rowsOut.map (fun q => (q.1.1.2, q.2))).lookup c0).getD 0)))[i]? = some a := by
    intro i a ha hnsplit
    obtain ⟨c, hc⟩ := hgetCC i a ha
    obtain ⟨q, hq, hqrow, hqout⟩ := houtPixel i a c ha hc
    have hz : (a, c) ∈ Z := mem_zip_iff_getElem?.mpr ⟨i, ha, hc⟩
    have hrt : ((a, c), Z.count (a, c)) ∈ T := (hTmem _ _).mpr ⟨hz, rfl⟩
    have hfind : T.find? (fun s => s.1.1 = a) = some ((a, c), Z.count (a, c)) := by
      refine find?_eq_some_of_unique hrt (by simp) ?_
      intro s hs hps
      have hsa : s.1.1 = a := by simpa using hps
      obtain ⟨hsz, hsk⟩ := hTrow s hs
      have hsc : s.1.2 = c := by
        by_contra hne
        exact hnsplit ⟨s.1, hsz, (a, c), hz, hsa, rfl, by simpa using hne⟩
      have hpair : s.1 = (a, c) := Prod.ext hsa hsc
      refine Prod.ext hpair ?_
      rw [hsk, hpair]
    have hkeep : (((a, c), Z.count (a, c)), a) ∈ rowsOut := by
      rw [hRowsdef]
      exact finalCCColumn_keep_first T (O + 1) [] a _ (by simp) hfind
    have hqeq : q = (((a, c), Z.count (a, c)), a) :=
      hEntryUnique q hq _ hkeep (by rw [hqrow])
    rw [hqout, hqeq]
  refine ⟨?_, hKeepUnsplit, ?_, ?_, ?_, ?_, ?_, ?_⟩
  · -- background 0 is untouched
    intro i h
    refine hKeepUnsplit i 0 h ?_
    rintro ⟨p, hp, q, hq, hp1, hq1, hne⟩
    have hp2 : p.2 = 0 := (h0 p hp).mp hp1
    have hq2 : q.2 = 0 := (h0 q hq).mp hq1
    exact hne (hp2.trans hq2.symm)
  · -- every voxel keeps its label or is above the original maximum
    intro i a b ha hb
    obtain ⟨c, hc⟩ := hgetCC i a ha
    obtain ⟨q, hq, hqrow, hqout⟩ := houtPixel i a c ha hc
    have hbq : b = q.2 := by
      rw [hqout] at hb
      exact (Option.some.injEq _ _).mp hb.symm
    rcases finalCCColumn_final_cases T (O + 1) [] q (hRowsdef ▸ hq) with hcase | hcase
    · left
      rw [hbq, hcase, hqrow]
    · right
      rw [← hOM, hbq]
      omega
  · -- the strictly largest component of a label keeps it
    intro L c hzc hmax i hci
    have hilt : i < labelsCC.length := (List.getElem?_eq_some.mp hci).1
    have hio : i < labelsOrig.length := by omega
    cases hai : labelsOrig[i]? with
    | none =>
      have := List.getElem?_eq_none_iff.mp hai
      omega
    | some a =>
      have hza : (a, c) ∈ Z := mem_zip_iff_getElem?.mpr ⟨i, hai, hci⟩
      have haL : a = L := hdet (a, c) hza (L, c) hzc rfl
      rw [haL] at hai hza
      obtain ⟨q, hq, hqrow, hqout⟩ := houtPixel i L c hai hci
      -- the first row of label L in the sorted table is the largest component
      have hrt : ((L, c), Z.count (L, c)) ∈ T := (hTmem _ _).mpr ⟨hzc, rfl⟩
      cases hf : T.find? (fun s => s.1.1 = L) with
      | none =>
        rw [List.find?_eq_none] at hf
        exact absurd (by simp : (fun s : (Nat × Nat) × Nat => decide (s.1.1 = L))
          ((L, c), Z.count (L, c)) = true) (hf _ hrt)
      | some r0 =>
        have hr0T : r0 ∈ T := List.mem_of_find?_eq_some hf
        have hr0L : r0.1.1 = L := by
          have := List.find?_some hf
          simpa using this
        have hr0row : r0 = ((L, c), Z.count (L, c)) := by
          rcases find?_first_pairwise hTsorted hf _ hrt (by simp) with heq | hle
          · exact heq.symm
          · obtain ⟨hr0z, hr0k⟩ := hTrow r0 hr0T
            have hr0pair : r0.1 = (L, r0.1.2) := Prod.ext hr0L rfl
            by_cases hcc : r0.1.2 = c
            · have hpair : r0.1 = (L, c) := Prod.ext hr0L hcc
              refine Prod.ext hpair ?_
              rw [hr0k, hpair]
            · exfalso
              have hz0 : (L, r0.1.2) ∈ Z := by rw [← hr0pair]; exact hr0z
              have hlt := hmax r0.1.2 hz0 hcc
              unfold clsSize at hlt
              rw [← hZdef] at hlt
              have hleB : Z.count (L, c) ≤ r0.2 := by
                unfold rowLeB at hle
                simpa using hle
              rw [hr0k, hr0pair] at hleB
              omega
        have hkeep : (((L, c), Z.count (L, c)), L) ∈ rowsOut := by
          rw [hRowsdef]
          refine finalCCColumn_keep_first T (O + 1) [] L _ (by simp) ?_
          rw [← hr0row]
          exact hf
        have hqeq : q = (((L, c), Z.count (L, c)), L) :=
          hEntryUnique q hq _ hkeep (by rw [hqrow])
        rw [hqout, hqeq]
  · -- fresh ids are contiguous
    rw [← hOM]
    have habs : ∀ q ∈ rowsOut, (decide (O < q.2)) = true →
        (decide (1 < T.countP (fun r => r.1.1 = q.1.1.1))) = true := by
      intro q hq hfresh
      rcases finalCCColumn_fresh_dup O T (O + 1) [] hTleO (by omega) q
        (hRowsdef ▸ hq) (by simpa using hfresh) with hseen | hcnt
      · cases hseen
      · simpa using hcnt
    rw [List.map_map]
    have heq2 : ((fun pr : Nat × Nat => pr.1) ∘ fun q => (q.2, q.1.1.1)) =
        (fun q : ((Nat × Nat) × Nat) × Nat => q.2) := rfl
    rw [heq2]
    rw [filter_map_filter_absorb _ _ _ rowsOut habs]
    rw [hRowsdef]
    exact fresh_range O T (O + 1) [] hTleO (by omega)
  · -- mapping rows concern split labels only, and are identity or fresh
    intro pr hpr
    obtain ⟨q, hqf, hqe⟩ := List.mem_map.mp hpr
    have hq : q ∈ rowsOut := List.mem_of_mem_filter hqf
    have hdup : 1 < T.countP (fun r => r.1.1 = q.1.1.1) := by
      have := (List.mem_filter.mp hqf).2
      simpa using this
    have hpr2 : pr.2 = q.1.1.1 := by rw [← hqe]
    have hpr1 : pr.1 = q.2 := by rw [← hqe]
    constructor
    · obtain ⟨x, hx, y, hy, hxy, hpx, hpy⟩ := two_mem_of_one_lt_countP hTnodup hdup
      have hx1 : x.1.1 = q.1.1.1 := by simpa using hpx
      have hy1 : y.1.1 = q.1.1.1 := by simpa using hpy
      have hxz := (hTrow x hx).1
      have hyz := (hTrow y hy).1
      have hne : x.1 ≠ y.1 := by
        intro hc
        have hk : x.2 = y.2 := by
          rw [(hTrow x hx).2, (hTrow y hy).2, hc]
        exact hxy (Prod.ext hc hk)
      have hsne : x.1.2 ≠ y.1.2 := by
        intro hc
        exact hne (Prod.ext (hx1.trans hy1.symm) hc)
      exact ⟨x.1, hxz, y.1, hyz, hpr2 ▸ hx1, hpr2 ▸ hy1, hsne⟩
    · rcases finalCCColumn_final_cases T (O + 1) [] q (hRowsdef ▸ hq) with hcase | hcase
      · left
        rw [hpr1, hpr2, hcase]
      · right
        rw [← hOM, hpr1]
        omega
  · -- a split label's identity pair is in the mapping
    intro L hsplit
    obtain ⟨p, hp, p', hp', hp1, hp'1, hpne⟩ := hsplit
    have hrt : (p, Z.count p) ∈ T := (hTmem _ _).mpr ⟨hp, rfl⟩
    have hrt' : (p', Z.count p') ∈ T := (hTmem _ _).mpr ⟨hp', rfl⟩
    cases hf : T.find? (fun s => s.1.1 = L) with
    | none =>
      rw [List.find?_eq_none] at hf
      exact absurd (by simp [hp1] :
        (fun s : (Nat × Nat) × Nat => decide (s.1.1 = L)) (p, Z.count p) = true) (hf _ hrt)
    | some r0 =>
      have hr0L : r0.1.1 = L := by
        have := List.find?_some hf
        simpa using this
      have hkeep : (r0, L) ∈ rowsOut := by
        rw [hRowsdef]
        exact finalCCColumn_keep_first T (O + 1) [] L r0 (by simp) hf
      have hdup : 1 < T.countP (fun r => r.1.1 = (r0, L).1.1.1) := by
        have hrowne : (p, Z.count p) ≠ (p', Z.count p') := by
          intro hc
          have : p = p' := congrArg Prod.fst hc
          exact hpne (by rw [this])
        refine one_lt_countP_of_two_mem hrt hrt' hrowne ?_ ?_
        · simp [hr0L, hp1]
        · simp [hr0L, hp'1]
      refine List.mem_map.mpr ⟨(r0, L), List.mem_filter.mpr ⟨hkeep, by simpa using hdup⟩, ?_⟩
      simp [hr0L]
  · -- every fresh output id maps back to its original label
    intro i a b ha hb hba
    obtain ⟨c, hc⟩ := hgetCC i a ha
    obtain ⟨q, hq, hqrow, hqout⟩ := houtPixel i a c ha hc
    have hbq : b = q.2 := by
      rw [hqout] at hb
      exact (Option.some.injEq _ _).mp hb.symm
    have horig : q.1.1.1 = a := by rw [hqrow]
    have hfresh : O < q.2 := by
      rcases finalCCColumn_final_cases T (O + 1) [] q (hRowsdef ▸ hq) with hcase | hcase
      · exact absurd (by rw [hbq, hcase, horig]) hba
      · omega
    have hdup : 1 < T.countP (fun r => r.1.1 = q.1.1.1) := by
      rcases finalCCColumn_fresh_dup O T (O + 1) [] hTleO (by omega) q
        (hRowsdef ▸ hq) hfresh with hseen | hcnt
      · cases hseen
      · exact hcnt
    refine List.mem_map.mpr ⟨q, List.mem_filter.mpr ⟨hq, by simpa using hdup⟩, ?_⟩
    show (q.2, q.1.1.1) = (b, a)
    rw [hbq, horig]

theorem split_disconnected_bodies_spec_witness :
    (split_disconnected_bodies
        [7, 7, 7, 7, 7, 7, 7, 7, 7, 7, 0, 7, 7, 7]
        [1, 1, 1, 1, 1, 1, 1, 1, 1, 1, 0, 2, 2, 2]).1[10]? = some 0 ∧
    (7, 7) ∈ (split_disconnected_bodies
        [7, 7, 7, 7, 7, 7, 7, 7, 7, 7, 0, 7, 7, 7]
        [1, 1, 1, 1, 1, 1, 1, 1, 1, 1, 0, 2, 2, 2]).2 := by
  have h := split_disconnected_bodies_spec
    [7, 7, 7, 7, 7, 7, 7, 7, 7, 7, 0, 7, 7, 7]
    [1, 1, 1, 1, 1, 1, 1, 1, 1, 1, 0, 2, 2, 2]
    (by decide) (by decide) (by decide)
  exact ⟨h.1 10 (by decide), h.2.2.2.2.2.2.1 7 (by decide)⟩

/-! ## connected_components (util.py lines 176-214): two backends -/

/-- Undirected adjacency induced by the edge list (both row orders). -/
def adjB (edges : List (Nat × Nat)) (u v : Nat) : Bool :=
  edges.any (fun e => (e.1 = u && e.2 = v) || (e.1 = v && e.2 = u))

/-- One breadth-first expansion step: append every not-yet-reached node of
0..n-1 adjacent to the current set. -/
def expand (edges : List (Nat × Nat)) (n : Nat) (s : List Nat) : List Nat :=
  s ++ (List.range n).filter (fun v => !s.contains v && s.any (fun u => adjB edges u v))

def reachAux (edges : List (Nat × Nat)) (n : Nat) : Nat → List Nat → List Nat
  | 0, s => s
  | f + 1, s => reachAux edges n f (expand edges n s)

/-- Modelled from the spec: the connected component of `v` in the graph on
nodes 0..n-1 — the common mathematical object both library backends
(graph_tool.topology.label_components and nx.connected_components) compute.
n expansion steps from the singleton saturate, since each step either adds
a node below n or is already a fixpoint. -/
def reach (edges : List (Nat × Nat)) (n v : Nat) : List Nat :=
  reachAux edges n n [v]

/-- Modelled from the spec: the canonical representative of node i's
component — the smallest reachable node id (the head of the ascending
filter of 0..n-1). -/
def rep (edges : List (Nat × Nat)) (n i : Nat) : Nat :=
  (((List.range n).filter (fun j => (reach edges n i).contains j)).headD i)

/-- Number of distinct components among nodes 0..n-1. -/
def numComponents (edges : List (Nat × Nat)) (n : Nat) : Nat :=
  (dedupKeepFirst ((List.range n).map (rep edges n))).length

/-- Modelled from the spec: the networkx fallback (util.py lines 206-214)
enumerates components in first-occurrence order of their nodes and stamps
each node with its component's enumeration index. -/
def nxCC (edges : List (Nat × Nat)) (n : Nat) : List Nat :=
  (List.range n).map (fun i =>
    (dedupKeepFirst ((List.range n).map (rep edges n))).indexOf (rep edges n i))

/-- Modelled from the spec: the graph-tool backend (util.py lines 197-204)
labels components in its own internal order, modelled as ascending order of
the component representative: a node's label is the number of component
representatives smaller than its own. -/
def gtCC (edges : List (Nat × Nat)) (n : Nat) : List Nat :=
  (List.range n).map (fun i =>
    ((dedupKeepFirst ((List.range n).map (rep edges n))).filter
      (fun x => x < rep edges n i)).length)

theorem countP_lt_of_witness {l : List Nat} {p q : Nat → Bool}
    (hpq : ∀ x ∈ l, p x = true → q x = true) {a : Nat} (ha : a ∈ l)
    (hqa : q a = true) (hpa : p a = false) : l.countP p < l.countP q := by
  induction l with
  | nil => cases ha
  | cons b t ih =>
    have hmono : t.countP p ≤ t.countP q :=
      List.countP_mono_left (fun x hx => hpq x (List.mem_cons_of_mem b hx))
    rw [List.countP_cons, List.countP_cons]
    rcases List.mem_cons.mp ha with heq | hmem
    · rw [heq] at hpa hqa
      rw [hpa, hqa]
      simp
      omega
    · have hlt := ih (fun x hx => hpq x (List.mem_cons_of_mem b hx)) hmem
      cases hpb : p b with
      | false => simp; omega
      | true =>
        have hqb : q b = true := hpq b (List.mem_cons_self b t) hpb
        rw [hqb]
        simp
        omega

theorem length_filter_lt_of_mem {l : List Nat} {p : Nat → Bool} {a : Nat}
    (ha : a ∈ l) (hpa : p a = false) : (l.filter p).length < l.length := by
  rw [← List.countP_eq_length_filter]
  have h := countP_lt_of_witness (p := p) (q := fun _ => true)
    (fun x _ _ => rfl) ha rfl hpa
  have htriv : l.countP (fun _ => true) ≤ l.length := List.countP_le_length _
  omega

theorem smallerReps_inj {L : List Nat} {r r' : Nat} (hr : r ∈ L) (hr' : r' ∈ L)
    (h : (L.filter (fun x => x < r)).length = (L.filter (fun x => x < r')).length) :
    r = r' := by
  rcases Nat.lt_trichotomy r r' with hlt | heq | hgt
  · exfalso
    have := countP_lt_of_witness (p := fun x => decide (x < r))
      (q := fun x => decide (x < r'))
      (fun x _ hx => by simp at hx ⊢; omega) hr (by simpa using hlt) (by simp)
    rw [List.countP_eq_length_filter, List.countP_eq_length_filter] at this
    omega
  · exact heq
  · exfalso
    have := countP_lt_of_witness (p := fun x => decide (x < r'))
      (q := fun x => decide (x < r))
      (fun x _ hx => by simp at hx ⊢; omega) hr' (by simpa using hgt) (by simp)
    rw [List.countP_eq_length_filter, List.countP_eq_length_filter] at this
    omega

/-- C8: both backends of connected_components return an array of length
num_nodes with values below the common component count, and they induce the
same partition of the node set: two nodes receive equal labels under the
networkx fallback iff they receive equal labels under the graph-tool path;
on 5 nodes with edges {(0,1),(1,2),(3,4)} both compute exactly 2 distinct
labels with {0,1,2} sharing one value and {3,4} the other. -/
theorem connected_components_backends (edges : List (Nat × Nat)) (n : Nat) :
    (nxCC edges n).length = n ∧
    (gtCC edges n).length = n ∧
    (∀ x ∈ nxCC edges n, x < numComponents edges n) ∧
    (∀ x ∈ gtCC edges n, x < numComponents edges n) ∧
    (∀ i j : Nat, i < n → j < n →
      ((nxCC edges n)[i]? = (nxCC edges n)[j]? ↔
        (gtCC edges n)[i]? = (gtCC edges n)[j]?)) ∧
    (nxCC [(0, 1), (1, 2), (3, 4)] 5 = [0, 0, 0, 1, 1] ∧
     gtCC [(0, 1), (1, 2), (3, 4)] 5 = [0, 0, 0, 1, 1] ∧
     numComponents [(0, 1), (1, 2), (3, 4)] 5 = 2) := by
  set L := dedupKeepFirst ((List.range n).map (rep edges n)) with hLdef
  have hmemL : ∀ i : Nat, i < n → rep edges n i ∈ L := by
    intro i hi
    rw [hLdef]
    exact mem_dedupKeepFirst.mpr
      (List.mem_map.mpr ⟨i, List.mem_range.mpr hi, rfl⟩)
  refine ⟨by simp [nxCC], by simp [gtCC], ?_, ?_, ?_, by decide, by decide, by decide⟩
  · intro x hx
    obtain ⟨i, hi, hxe⟩ := List.mem_map.mp hx
    rw [← hxe]
    exact List.indexOf_lt_length.mpr (hmemL i (List.mem_range.mp hi))
  · intro x hx
    obtain ⟨i, hi, hxe⟩ := List.mem_map.mp hx
    rw [← hxe]
    exact length_filter_lt_of_mem (hmemL i (List.mem_range.mp hi)) (by simp)
  · intro i j hi hj
    have hri : (List.range n)[i]? = some i := List.getElem?_range hi
    have hrj : (List.range n)[j]? = some j := List.getElem?_range hj
    have hnxi : (nxCC edges n)[i]? = some (L.indexOf (rep edges n i)) := by
      unfold nxCC
      rw [List.getElem?_map, hri]
      rfl
    have hnxj : (nxCC edges n)[j]? = some (L.indexOf (rep edges n j)) := by
      unfold nxCC
      rw [List.getElem?_map, hrj]
      rfl
    have hgti : (gtCC edges n)[i]? =
        some ((L.filter (fun x => x < rep edges n i)).length) := by
      unfold gtCC
      rw [List.getElem?_map, hri]
      rfl
    have hgtj : (gtCC edges n)[j]? =
        some ((L.filter (fun x => x < rep edges n j)).length) := by
      unfold gtCC
      rw [List.getElem?_map, hrj]
      rfl
    rw [hnxi, hnxj, hgti, hgtj]
    constructor
    · intro h
      have hidx : L.indexOf (rep edges n i) = L.indexOf (rep edges n j) :=
        (Option.some.injEq _ _).mp h
      have hrep : rep edges n i = rep edges n j :=
        (List.indexOf_inj (hmemL i hi) (hmemL j hj)).mp hidx
      rw [hrep]
    · intro h
      have hflt : (L.filter (fun x => x < rep edges n i)).length =
          (L.filter (fun x => x < rep edges n j)).length :=
        (Option.some.injEq _ _).mp h
      have hrep : rep edges n i = rep edges n j :=
        smallerReps_inj (hmemL i hi) (hmemL j hj) hflt
      rw [hrep]

theorem connected_components_backends_witness :
    ((nxCC [(0, 1), (1, 2), (3, 4)] 5)[0]? = (nxCC [(0, 1), (1, 2), (3, 4)] 5)[3]? ↔
      (gtCC [(0, 1), (1, 2), (3, 4)] 5)[0]? = (gtCC [(0, 1), (1, 2), (3, 4)] 5)[3]?) :=
  (connected_components_backends [(0, 1), (1, 2), (3, 4)] 5).2.2.2.2.1 0 3
    (by decide) (by decide)

end Neuclease
